import Mathlib

/-!
# Verification of the confsync tree-synchronization engine

A shallow embedding of the confsync push/pull synchronizer (put.go, watch.go)
together with proofs about its ignore model, transaction construction,
materialization, directory pruning and key resolution.

Go strings are modelled as `List Char`; Go byte slices as `List Nat`;
path component lists as `List String`.  The etcd client is modelled as a
key/value association list with a create-revision flag implicit in presence.
-/

namespace Confsync

/-- Go strings, modelled as lists of characters. -/
abbrev GoStr := List Char

/-! ## Unix path primitives (path/filepath), modelled on `List Char`

These mirror Go's `path/filepath` for unix: `Clean`, `Dir`, `Base`,
`Join`, `Rel`, as used by put.go and watch.go. -/

/-- Split a character list on a separator character.  Mirrors how Go's
path functions scan path elements between `/` separators.  The result is
always non-empty. -/
def splitOnChar (sep : Char) : List Char → List (List Char)
  | [] => [[]]
  | c :: rest =>
    match splitOnChar sep rest with
    | [] => [[]]
    | h :: t => if c = sep then [] :: h :: t else (c :: h) :: t

/-- Join path components with `/` separators (no leading or trailing
separator). -/
def joinComps : List (List Char) → List Char
  | [] => []
  | [c] => c
  | c :: cs => c ++ '/' :: joinComps cs

/-- Render an absolute path from its (clean) components: `/` for the
empty list, otherwise `/c1/c2/...`. -/
def renderAbs (cs : List (List Char)) : List Char :=
  '/' :: joinComps cs

/-- The element-processing loop of Go's `path.Clean`: drop empty and `.`
elements, resolve `..` against the output stack (a leading `..` is dropped
for rooted paths and kept for relative ones). -/
def cleanComps (rooted : Bool) (cs : List (List Char)) : List (List Char) :=
  cs.foldl
    (fun acc c =>
      if c = [] ∨ c = ['.'] then acc
      else if c = ['.', '.'] then
        if acc ≠ [] ∧ acc.getLast? ≠ some ['.', '.'] then acc.dropLast
        else if rooted then acc
        else acc ++ [['.', '.']]
      else acc ++ [c])
    []

/-- Go `filepath.Clean` (unix): canonicalize a path string. -/
def goClean (s : GoStr) : GoStr :=
  let rooted := s.head? = some '/'
  let out := cleanComps rooted (splitOnChar '/' s)
  if rooted then renderAbs out
  else if out = [] then ['.']
  else joinComps out

/-- Drop the maximal trailing run of characters satisfying `p`. -/
def dropTrailing (p : Char → Bool) (s : List Char) : List Char :=
  (s.reverse.dropWhile p).reverse

/-- Go `filepath.Dir` (unix): all but the last path element, cleaned. -/
def goDir (s : GoStr) : GoStr :=
  goClean (dropTrailing (fun c => c ≠ '/') s)

/-- Go `filepath.Base` (unix): the last path element; `"."` for the empty
string, `"/"` for an all-separator string. -/
def goBase (s : GoStr) : GoStr :=
  if s = [] then ['.']
  else
    let s1 := dropTrailing (fun c => c = '/') s
    if s1 = [] then ['/']
    else (s1.reverse.takeWhile (fun c => c ≠ '/')).reverse

/-- Go `filepath.Join` of two elements (unix): join the non-empty parts
with a separator and clean the result. -/
def goJoin (a b : GoStr) : GoStr :=
  if a = [] then if b = [] then [] else goClean b
  else if b = [] then goClean a
  else goClean (a ++ '/' :: b)

/-- String prefix test (Go `strings.HasPrefix`). -/
def hasPfx (p s : GoStr) : Bool := p.isPrefixOf s

/-- Go `filepath.Rel` (unix): express `targ` relative to `base`, or fail.
Both are cleaned first; rootedness must agree; a remaining `..` in the
base after the common part is an error. -/
def goRel (basep targp : GoStr) : Option GoStr :=
  let b := goClean basep
  let t := goClean targp
  if b = t then some ['.']
  else
    let b := if b = ['.'] then [] else b
    if ((b.head? = some '/') : Bool) ≠ ((t.head? = some '/') : Bool) then none
    else
      let bs := if b = [] then [] else splitOnChar '/' b
      let ts := splitOnChar '/' t
      let common := (List.zip bs ts).takeWhile (fun p => p.1 = p.2) |>.length
      let brest := bs.drop common
      let trest := ts.drop common
      if brest.head? = some ['.', '.'] then none
      else if brest ≠ [] then
        some (joinComps (List.replicate brest.length ['.', '.'])
              ++ (if trest ≠ [] then '/' :: joinComps trest else []))
      else some (joinComps trest)

/-! ## Pull-side key resolution (watch.go `keyRelPath`) -/

/-- watch.go `keyRelPath`: resolve a store key to a root-relative path.
The key equal to the watched key namespace maps to its own base name;
a key whose relative form escapes (`../`-prefixed) or is a fingerprint
companion (base `.hash`) is skipped (`none`). -/
def keyRelPath (pfx key : GoStr) : Option GoStr :=
  if key = pfx then some (goBase key)
  else
    match goRel pfx key with
    | none => none
    | some rel =>
      if hasPfx "../".data rel ∨ goBase rel = ".hash".data then none
      else some rel

/-- The local target path a watcher derives for a store key: the resolved
relative path joined under the session root (watch.go `initialSync` and
`run`). -/
def syncTarget (pfx root key : GoStr) : Option GoStr :=
  (keyRelPath pfx key).map (goJoin root)

/-- The file paths an event-loop iteration touches (creates, replaces or
unlinks) for a given event key: none when key resolution skips the key,
otherwise exactly the joined target (both the delete branch's unlink and
the put branch's materialization act on that one file path). -/
def eventFileTargets (pfx root key : GoStr) : List GoStr :=
  match keyRelPath pfx key with
  | none => []
  | some rel => [goJoin root rel]

/-! ## The ancestor-pruning loop's directory chain (watch.go `run`)

After a successful unlink of `fn` the loop repeatedly replaces `d` by
`filepath.Dir(d)` and stops only when `d` equals the session root string.
`dirLoop` runs the loop for `fuel` iterations and reports whether it
stopped. -/

def dirLoop (root : GoStr) : Nat → GoStr → Bool
  | 0, _ => false
  | fuel + 1, d =>
    let d' := goDir d
    if d' = root then true else dirLoop root fuel d'

/-- The pruning loop terminates on inputs `fn`, `root`. -/
def dirLoopTerminates (root fn : GoStr) : Prop :=
  ∃ fuel, dirLoop root fuel fn = true

/-! ## Component-level paths

The push synchronizer is modelled over absolute paths represented as lists
of path components (each component a non-empty, separator-free, non-dot
name).  On this fragment `filepath.Join` is concatenation followed by
`..`-resolution and `filepath.Rel` never fails. -/

/-- Component paths. -/
abbrev CPath := List String

/-- `..`-resolution of a component sequence interpreted as an absolute
path (`filepath.Clean` restricted to component level: a `..` consumes the
preceding component, leading `..`s vanish at the root). -/
def compClean (cs : CPath) : CPath :=
  cs.foldl
    (fun acc c =>
      if c = "" ∨ c = "." then acc
      else if c = ".." then acc.dropLast
      else acc ++ [c]) []

/-- `filepath.Join` at component level (absolute left argument). -/
def compJoin (a b : CPath) : CPath := compClean (a ++ b)

/-- `filepath.Rel` at component level for two absolute, dot-free
component paths (never fails on this fragment). -/
def compRel (base targ : CPath) : CPath :=
  let common := (List.zip base targ).takeWhile (fun p => p.1 = p.2) |>.length
  List.replicate (base.length - common) ".." ++ targ.drop common

/-- `strings.HasPrefix(rel, "../")` for a rendered component path: the
rendered string starts with `../` exactly when the first component is
`..` and another component follows (a lone `..` renders without a
slash). -/
def relEscapes : CPath → Bool
  | ".." :: _ :: _ => true
  | _ => false

/-! ## The Ignore Model (put.go `confIgnoreMatcher`, `treeIgnoreMatcher`)

Compiled gitignore pattern sets are external collaborators; they are
modelled as abstract boolean predicates on component paths. -/

/-- put.go `confIgnoreMatcher`: an optional pair of compiled pattern
sets (`.gitignore` / `.confignore`) for one directory. -/
structure ConfIgnoreMatcher where
  gitIgnore : Option (CPath → Bool)
  confIgnore : Option (CPath → Bool)

/-- put.go `confIgnoreMatcher.MatchesPath`, including the nil-receiver
case (`none`): nil or empty matchers match nothing; otherwise the
`.gitignore` set is consulted first, then the `.confignore` set. -/
def confMatchesPath : Option ConfIgnoreMatcher → CPath → Bool
  | none, _ => false
  | some l, p =>
    (match l.gitIgnore with | some g => g p | none => false)
    || (match l.confIgnore with | some c => c p | none => false)

/-- put.go `treeIgnoreMatcher`: the hierarchical ignore model.  `root`
is the synchronization root against which relative forms are computed,
`global` the user-global pattern set, `localScopes` the map (modelled as
an association list, most recent first) from root-relative directory
paths to their recorded rule pairs. -/
structure TreeIgnoreMatcher where
  root : CPath
  global : Option (CPath → Bool)
  localScopes : List (CPath × ConfIgnoreMatcher)

/-- Map lookup in the recorded scopes. -/
def lookupScope (l : List (CPath × ConfIgnoreMatcher)) (d : CPath) :
    Option ConfIgnoreMatcher :=
  (l.find? (fun e => e.1 = d)).map (·.2)

/-- put.go `treeIgnoreMatcher.addPath`: record the directory's rule pair
under its root-relative path, skipping directories that escape the root
and directories where neither ignore file compiled (`scope` abstracts
which pattern sets the directory's ignore files yielded). -/
def TreeIgnoreMatcher.addPath (tim : TreeIgnoreMatcher) (p : CPath)
    (scope : Option ConfIgnoreMatcher) : TreeIgnoreMatcher :=
  let rel := compRel tim.root p
  if relEscapes rel then tim
  else
    match scope with
    | none => tim
    | some cim =>
      if cim.confIgnore.isSome ∨ cim.gitIgnore.isSome then
        { tim with localScopes := (rel, cim) :: tim.localScopes }
      else tim

/-- The ancestor walk of put.go `treeIgnoreMatcher.Match`: repeatedly
replace `dir` by its parent, consulting the recorded scope of each
ancestor (including `.`, the root itself, checked before the loop
breaks) against the root-relative path `rel`.  `fuel` bounds the walk;
`dir.length + 1` steps always reach the break condition. -/
def scopeLoop (scopes : List (CPath × ConfIgnoreMatcher)) (rel : CPath) :
    Nat → CPath → Bool
  | 0, _ => false
  | fuel + 1, dir =>
    let d := dir.dropLast
    if confMatchesPath (lookupScope scopes d) rel then true
    else if d = [] then false
    else scopeLoop scopes rel fuel d

/-- put.go `treeIgnoreMatcher.Match`: a path is ignored when the global
set matches it, or when its root-relative form does not escape the root
and some recorded ancestor scope matches the relative form.  (On the
modelled fragment — absolute component paths — `filepath.Rel` never
fails, so the error branch of the source is absent.)  The `isDir`
argument is accepted and unused, as in the source. -/
def TreeIgnoreMatcher.Match (tim : TreeIgnoreMatcher) (p : CPath)
    (_isDir : Bool) : Bool :=
  if (match tim.global with | some g => g p | none => false) then true
  else
    let rel := compRel tim.root p
    if relEscapes rel then false
    else scopeLoop tim.localScopes rel (rel.length + 1) rel

/-! ## Content encoding (put.go `getFile`)

`snappy.Encode` and the hex-encoded SHA-512/224 digest are external
collaborators, abstracted as functions `cp` (compress) and `dg`
(digest of the raw, pre-compression bytes). -/

abbrev Bytes := List Nat

/-! ## Store transactions (put.go `updateTreeRecursively`)

The etcd comparators and operations actually used by the source:
`Compare(CreateRevision(k), "!=", 0)` (the key exists),
`Compare(Value(k), "=", v)`, `OpPut`, `OpDelete`.  A store is an
association list from keys to values; a key's create-revision is
non-zero exactly when the key is present. -/

inductive CmpGuard where
  | createRevNonZero (key : CPath)
  | valueEq (key : CPath) (v : Bytes)
deriving DecidableEq

inductive StoreOp where
  | put (key : CPath) (v : Bytes)
  | del (key : CPath)
deriving DecidableEq

/-- One `clientv3.OpTxn` sub-transaction: ANDed guard, then-branch,
else-branch. -/
structure SubTxn where
  guard : List CmpGuard
  thenOps : List StoreOp
  elseOps : List StoreOp
deriving DecidableEq

abbrev Store := List (CPath × Bytes)

def lookupKey (s : Store) (k : CPath) : Option Bytes :=
  (s.find? (fun e => e.1 = k)).map (·.2)

def evalGuard (s : Store) : CmpGuard → Bool
  | .createRevNonZero k => (lookupKey s k).isSome
  | .valueEq k v => lookupKey s k = some v

def applyOp (s : Store) : StoreOp → Store
  | .put k v => s.filter (fun e => e.1 ≠ k) ++ [(k, v)]
  | .del k => s.filter (fun e => e.1 ≠ k)

/-- Execute one sub-transaction: if every guard comparison holds, run the
then-branch (reporting success), otherwise the else-branch. -/
def applySub (s : Store) (t : SubTxn) : Store × Bool :=
  if t.guard.all (evalGuard s) then (t.thenOps.foldl applyOp s, true)
  else (t.elseOps.foldl applyOp s, false)

/-- Execute a top-level transaction: all sub-transactions in order, as a
unit, collecting each sub-transaction's success flag. -/
def applyTxn (s : Store) : List SubTxn → Store × List Bool
  | [] => (s, [])
  | t :: ts =>
    let (s', ok) := applySub s t
    let (s'', oks) := applyTxn s' ts
    (s'', ok :: oks)

/-! ## The local directory tree and the push walk
(put.go `updateTreeRecursively`'s `filepath.Walk` callback)

A directory node carries the rule pair its ignore files would compile to
(`scope`), abstracting `addPath`'s reading of `.confignore` /
`.gitignore`; its entries are walked in list order (Go's `filepath.Walk`
visits entries in name order — the claims do not depend on which fixed
order is used). -/

mutual
inductive FTree where
  | file (content : Bytes)
  | dir (scope : Option ConfIgnoreMatcher) (entries : FForest)
inductive FForest where
  | nil
  | cons (name : String) (t : FTree) (rest : FForest)
end

/-- One visited content file: absolute path, root-relative path, raw
bytes. -/
structure FileRec where
  path : CPath
  rel : CPath
  raw : Bytes
deriving DecidableEq

/-- Walk state: the evolving ignore matcher, the deletion-candidate key
set (`tree`), the accumulated sub-transactions and their descriptors
(`path`, `isDel`), and — for specification purposes — the list of
visited content files in walk order. -/
@[ext]
structure WalkSt where
  tim : TreeIgnoreMatcher
  tree : List CPath
  ops : List SubTxn
  descs : List (CPath × Bool)
  files : List FileRec

/-- The conditional sub-transaction appended for one content file
(put.go lines 234–245): guard `key` exists ∧ `key/.hash` exists ∧
`key/.hash`'s value equals the new digest; empty then-branch; else-branch
puts the compressed payload and the digest. -/
def condPutTxn (key hashKey : CPath) (data digest : Bytes) : SubTxn :=
  ⟨[.createRevNonZero key, .createRevNonZero hashKey, .valueEq hashKey digest],
   [],
   [.put key data, .put hashKey digest]⟩

/-- The regular-file branch of the `filepath.Walk` callback of put.go
(lines 223–247): ignore-rule files and ignored files are skipped; every
other regular file is read, encoded and turned into one conditional
sub-transaction, its key removed from the deletion-candidate set. -/
def fileVisit (dg cp : Bytes → Bytes) (pfx root : CPath) (p : CPath)
    (name : String) (content : Bytes) (st : WalkSt) : WalkSt :=
  if name = ".gitignore" ∨ name = ".confignore" ∨ st.tim.Match p false then st
  else
    let data := cp content
    let digest := dg content
    let rel := compRel root p
    let key := compJoin pfx rel
    let hashKey := compJoin key [".hash"]
    { st with
      tree := st.tree.filter (fun k => k ≠ key)
      ops := st.ops ++ [condPutTxn key hashKey data digest]
      descs := st.descs ++ [(key, false)]
      files := st.files ++ [⟨p, rel, content⟩] }

/-- The recursive walk over a directory's entries in order (put.go's
`filepath.Walk` of lines 213–248): directories named `.git` and ignored
directories are pruned undescended; other directories register their
ignore scope and are descended into; files go through `fileVisit`. -/
def walkEntries (dg cp : Bytes → Bytes) (pfx root : CPath) :
    FForest → CPath → WalkSt → WalkSt
  | .nil, _, st => st
  | .cons n (.file content) rest, cur, st =>
    walkEntries dg cp pfx root rest cur
      (fileVisit dg cp pfx root (cur ++ [n]) n content st)
  | .cons n (.dir scope entries) rest, cur, st =>
    walkEntries dg cp pfx root rest cur
      (if n = ".git" then st
       else if st.tim.Match (cur ++ [n]) true then st
       else walkEntries dg cp pfx root entries (cur ++ [n])
         { st with tim := st.tim.addPath (cur ++ [n]) scope })

/-- The `filepath.Walk` callback applied to one node at absolute path
`p` with base name `name` (put.go lines 213–248). -/
def walkNode (dg cp : Bytes → Bytes) (pfx root : CPath) (p : CPath)
    (name : String) (t : FTree) (st : WalkSt) : WalkSt :=
  match t with
  | .file content => fileVisit dg cp pfx root p name content st
  | .dir scope entries =>
    if name = ".git" then st
    else if st.tim.Match p true then st
    else walkEntries dg cp pfx root entries p
      { st with tim := st.tim.addPath p scope }

/-- The unconditional delete-pair sub-transaction appended for one
deletion candidate (put.go lines 254–261). -/
def delTxn (key : CPath) : SubTxn :=
  ⟨[], [.del key, .del (compJoin key [".hash"])], []⟩

/-- The result of one push run. -/
structure PushResult where
  walk : WalkSt
  delKeys : List CPath
  ops : List SubTxn
  descs : List (CPath × Bool)
  store : Store
  oks : List Bool

/-- Report lines printed after the transaction (put.go lines 269–279):
`removed` for a successful deletion sub-transaction, `updated` for a
conditional sub-transaction whose guard failed. -/
inductive OutLine where
  | updated (key : CPath)
  | removed (key : CPath)
deriving DecidableEq

def reportLines : List ((CPath × Bool) × Bool) → List OutLine
  | [] => []
  | ((key, isDel), ok) :: rest =>
    if isDel then
      (if ok then [.removed key] else []) ++ reportLines rest
    else
      (if ok then [] else [.updated key]) ++ reportLines rest

/-- The deletion-candidate set built from the initial key listing
(put.go lines 187–196): every key under the namespace except fingerprint
companions. -/
def pushTree0 (store0 : Store) : List CPath :=
  (store0.map (·.1)).filter (fun k => k.getLast? ≠ some ".hash")

/-- The walk phase of put.go `updateTreeRecursively` (lines 213–250):
`filepath.Walk` starting at the root node.  The ignore matcher `tim0`
abstracts the root-resolution cases of lines 197–212. -/
def pushWalk (dg cp : Bytes → Bytes) (store0 : Store) (pfx root : CPath)
    (tim0 : TreeIgnoreMatcher) (t : FTree) : WalkSt :=
  walkNode dg cp pfx root root (root.getLastD "/") t
    ⟨tim0, pushTree0 store0, [], [], []⟩

/-- The deletion phase (put.go lines 251–264): every remaining candidate
whose corresponding local path (root joined with the key's
namespace-relative path) is not ignored. -/
def pushDelKeys (dg cp : Bytes → Bytes) (store0 : Store) (pfx root : CPath)
    (tim0 : TreeIgnoreMatcher) (t : FTree) : List CPath :=
  (pushWalk dg cp store0 pfx root tim0 t).tree.filter
    (fun key => ¬ (pushWalk dg cp store0 pfx root tim0 t).tim.Match
      (compJoin root (compRel pfx key)) false)

/-- The full ordered sub-transaction list of the single top-level
transaction (put.go line 265). -/
def pushOps (dg cp : Bytes → Bytes) (store0 : Store) (pfx root : CPath)
    (tim0 : TreeIgnoreMatcher) (t : FTree) : List SubTxn :=
  (pushWalk dg cp store0 pfx root tim0 t).ops
    ++ (pushDelKeys dg cp store0 pfx root tim0 t).map delTxn

def pushDescs (dg cp : Bytes → Bytes) (store0 : Store) (pfx root : CPath)
    (tim0 : TreeIgnoreMatcher) (t : FTree) : List (CPath × Bool) :=
  (pushWalk dg cp store0 pfx root tim0 t).descs
    ++ (pushDelKeys dg cp store0 pfx root tim0 t).map (fun k => (k, true))

/-- put.go `updateTreeRecursively`: list the keys under `pfx` excluding
fingerprint companions to form the deletion-candidate set; walk the root
directory, building one conditional sub-transaction per content file;
for each remaining candidate whose corresponding local path is not
ignored, append an unconditional delete-pair; execute everything as one
transaction and report. -/
def pushRun (dg cp : Bytes → Bytes) (store0 : Store) (pfx root : CPath)
    (tim0 : TreeIgnoreMatcher) (t : FTree) : PushResult :=
  { walk := pushWalk dg cp store0 pfx root tim0 t,
    delKeys := pushDelKeys dg cp store0 pfx root tim0 t,
    ops := pushOps dg cp store0 pfx root tim0 t,
    descs := pushDescs dg cp store0 pfx root tim0 t,
    store := (applyTxn store0 (pushOps dg cp store0 pfx root tim0 t)).1,
    oks := (applyTxn store0 (pushOps dg cp store0 pfx root tim0 t)).2 }

/-- The printed output of one push run. -/
def pushOut (r : PushResult) : List OutLine :=
  reportLines (r.descs.zip r.oks)

/-! ## The pull-side local filesystem (watch.go)

The watcher's filesystem is an association list from absolute component
paths to nodes (regular file with content, or directory).  Operations
that the source checks for errors are made fallible through an explicit
error oracle, so that every error path of the source is reachable in the
model. -/

inductive WNode where
  | file (content : Bytes)
  | dir
deriving DecidableEq

abbrev WFs := List (CPath × WNode)

def fsLookup (fs : WFs) (p : CPath) : Option WNode :=
  (fs.find? (fun e => e.1 = p)).map (·.2)

def fsSet (fs : WFs) (p : CPath) (n : WNode) : WFs :=
  fs.filter (fun e => e.1 ≠ p) ++ [(p, n)]

def fsDel (fs : WFs) (p : CPath) : WFs :=
  fs.filter (fun e => e.1 ≠ p)

/-- A directory is non-empty when some other entry lies strictly below
it (in a well-formed filesystem this is equivalent to `Readdirnames`
returning a name). -/
def fsNonEmptyDir (fs : WFs) (d : CPath) : Bool :=
  fs.any (fun e => d.isPrefixOf e.1 ∧ e.1 ≠ d)

/-- Error oracle for one `maybeUpdateFile` call: which fallible
operation fails, and the fresh leaf name `ioutil.TempFile` picks. -/
structure FsOracle where
  readErr : Bool
  mkdirErr : Bool
  tmpErr : Bool
  writeErr : Bool
  closeErr : Bool
  chmodErr : Bool
  chownErr : Bool
  renameErr : Bool
  tmpLeaf : String

/-- The missing-ancestor chain of watch.go `mkdirAll` (lines 381–398):
walk upward from `d` collecting absent ancestors, stopping at the
filesystem root or an existing directory; an existing non-directory is
an error.  The chain is returned outermost first. -/
def mkdirChain (fs : WFs) : Nat → CPath → Except Unit (List CPath)
  | 0, _ => .ok []
  | fuel + 1, d =>
    let d' := d.dropLast
    if d' = [] then .ok []
    else
      match fsLookup fs d' with
      | some .dir => .ok []
      | some (.file _) => .error ()
      | none => (mkdirChain fs fuel d').map (fun l => l ++ [d'])

/-- watch.go `mkdirAll`: create `p` and its missing ancestors (owner,
group and mode are not modelled beyond success/failure). -/
def mkdirAllM (fs : WFs) (p : CPath) : Except Unit WFs :=
  match fsLookup fs p with
  | some .dir => .ok fs
  | some (.file _) => .error ()
  | none =>
    match mkdirChain fs p.length p with
    | .error _ => .error ()
    | .ok chain => .ok ((chain ++ [p]).foldl (fun a d => fsSet a d .dir) fs)

/-- Result of one `maybeUpdateFile` call: the filesystem afterwards,
whether the content changed, whether an error was returned, and whether
the temporary file had been created before returning. -/
structure UpdResult where
  fs : WFs
  updated : Bool
  err : Bool
  tempCreated : Bool
deriving DecidableEq

/-- The write/replace phase of watch.go `maybeUpdateFile` (lines
432–455): create a temporary file next to the target, write the content,
close, chmod, chown (only when an owner is configured), and atomically
rename over the target; on any failure unlink the temporary file and
return the error. -/
def writePhase (o : FsOracle) (owner : Int) (fs : WFs) (path tmp : CPath)
    (content : Bytes) : UpdResult :=
  if o.tmpErr then ⟨fs, false, true, false⟩
  else
    let fs1 := fsSet fs tmp (.file [])
    if o.writeErr then ⟨fsDel fs1 tmp, false, true, true⟩
    else
      let fs2 := fsSet fs1 tmp (.file content)
      if o.closeErr then ⟨fsDel fs2 tmp, false, true, true⟩
      else if o.chmodErr then ⟨fsDel fs2 tmp, false, true, true⟩
      else if owner ≥ 0 ∧ o.chownErr then ⟨fsDel fs2 tmp, false, true, true⟩
      else if o.renameErr then ⟨fsDel fs2 tmp, false, true, true⟩
      else ⟨fsSet (fsDel fs2 tmp) path (.file content), true, false, true⟩

/-- watch.go `maybeUpdateFile` (lines 413–457): refuse to overwrite a
directory; report `unchanged` when the target already holds the content;
otherwise ensure the parent directory exists (creating the missing chain
via `mkdirAll`, refusing when the parent exists as a non-directory) and
run the write/replace phase. -/
def maybeUpdateFileM (o : FsOracle) (owner : Int) (fs : WFs) (path : CPath)
    (content : Bytes) : UpdResult :=
  let p := path.dropLast
  let tmp := p ++ [o.tmpLeaf]
  match fsLookup fs path with
  | some .dir => ⟨fs, false, true, false⟩
  | some (.file existing) =>
    if ¬ o.readErr ∧ existing = content then ⟨fs, false, false, false⟩
    else writePhase o owner fs path tmp content
  | none =>
    if p = [] then writePhase o owner fs path tmp content
    else
      match fsLookup fs p with
      | some .dir => writePhase o owner fs path tmp content
      | some (.file _) => ⟨fs, false, true, false⟩
      | none =>
        if o.mkdirErr then ⟨fs, false, true, false⟩
        else
          match mkdirAllM fs p with
          | .error _ => ⟨fs, false, true, false⟩
          | .ok fs' => writePhase o owner fs' path tmp content

/-- watch.go `maybeRemoveDir` (lines 459–474): open the directory, read
one name; a non-empty directory is left alone, an empty one is removed;
opening or reading failures report an error. -/
def maybeRemoveDirM (fs : WFs) (d : CPath) : Bool × WFs :=
  match fsLookup fs d with
  | none => (false, fs)
  | some (.file _) => (false, fs)
  | some .dir =>
    if fsNonEmptyDir fs d then (false, fs)
    else (true, fsDel fs d)

/-- The ancestor-pruning loop of watch.go `run` (lines 495–505) at
component level: repeatedly move to the parent directory, attempting
`maybeRemoveDir` on every ancestor strictly below the session root
(errors are logged and the loop continues).  The loop stops at the root;
the additional stop at the filesystem root `[]` makes the model total
(at string level the source loop diverges there, see `dirLoop`). -/
def pruneLoop (root : CPath) (d : CPath) (fs : WFs) : WFs × List CPath :=
  if d.dropLast = root then (fs, [])
  else if h : d.dropLast = [] then (fs, [])
  else
    let (removed, fs1) := maybeRemoveDirM fs d.dropLast
    let (fs2, rest) := pruneLoop root d.dropLast fs1
    (fs2, if removed then d.dropLast :: rest else rest)
termination_by d.length
decreasing_by
  have hd : d ≠ [] := by
    rintro rfl
    simp at h
  have hlen : d.length ≠ 0 := fun h0 => hd (List.eq_nil_of_length_eq_zero h0)
  simp only [List.length_dropLast]
  omega

/-! ## The steady-state event loop (watch.go `run`, lines 482–521) -/

/-- watch.go `keyRelPath` at component level (see `keyRelPath` for the
string-level version): the key equal to the watched namespace resolves
to its own base name; an escaping or fingerprint-companion key is
skipped. -/
def compKeyRelPath (pfx key : CPath) : Option CPath :=
  if key = pfx then some [pfx.getLastD "/"]
  else
    let rel := compRel pfx key
    if relEscapes rel ∨ rel.getLast? = some ".hash" then none
    else some rel

/-- A watch event: one put or delete of a store key. -/
inductive WEvent where
  | put (key : CPath) (v : Bytes)
  | del (key : CPath)

def WEvent.key : WEvent → CPath
  | .put k _ => k
  | .del k => k

/-- Observable filesystem/command actions of the event loop, in order. -/
inductive WAct where
  | removedFile (p : CPath)
  | removedDir (p : CPath)
  | reload
deriving DecidableEq

/-- The delete branch of the event loop: unlink the target file (an
absent target or a directory is an unlink error, reported and otherwise
ignored); on success, run the ancestor-pruning loop. -/
def handleDelete (root fn : CPath) (fs : WFs) : WFs × List CPath × Bool :=
  match fsLookup fs fn with
  | some (.file _) =>
    let fs1 := fsDel fs fn
    let (fs2, removedDirs) := pruneLoop root fn fs1
    (fs2, removedDirs, true)
  | _ => (fs, [], false)

/-- One event of a watch response (watch.go lines 487–516).  Returns the
filesystem afterwards, whether a materialization changed content (the
`cnt++` condition), and the actions performed.  `decode` abstracts
`snappy.Decode`; decode failures skip the event. -/
def processEvent (decode : Bytes → Option Bytes) (o : FsOracle) (owner : Int)
    (pfx root : CPath) (fs : WFs) (ev : WEvent) : WFs × Bool × List WAct :=
  match compKeyRelPath pfx ev.key with
  | none => (fs, false, [])
  | some rel =>
    let fn := compJoin root rel
    match ev with
    | .del _ =>
      let (fs', removedDirs, ok) := handleDelete root fn fs
      (fs', false,
        if ok then WAct.removedFile fn :: removedDirs.map WAct.removedDir else [])
    | .put _ v =>
      match decode v with
      | none => (fs, false, [])
      | some data =>
        let r := maybeUpdateFileM o owner fs fn data
        (r.fs, r.updated, [])

/-- All events of one watch response in delivery order, collecting the
per-event changed flags. -/
def processEvents (decode : Bytes → Option Bytes) (owner : Int)
    (pfx root : CPath) : WFs → List (WEvent × FsOracle) →
    WFs × List Bool × List WAct
  | fs, [] => (fs, [], [])
  | fs, (ev, o) :: rest =>
    let (fs1, chg, acts1) := processEvent decode o owner pfx root fs ev
    let (fs2, flags, acts2) := processEvents decode owner pfx root fs1 rest
    (fs2, chg :: flags, acts1 ++ acts2)

/-- One iteration of the watch response loop: apply every event, then run
the reload command exactly when at least one materialization changed
content (watch.go lines 518–520). -/
def processResponse (decode : Bytes → Option Bytes) (owner : Int)
    (pfx root : CPath) (fs : WFs) (evs : List (WEvent × FsOracle)) :
    WFs × List WAct :=
  let (fs', flags, acts) := processEvents decode owner pfx root fs evs
  (fs', if 0 < flags.count true then acts ++ [.reload] else acts)

/-! ## Walk specification

A pure restatement of the traversal: which files the walk visits and how
the ignore matcher evolves, independent of the store-derived parts of the
walk state.  `walkNode_spec` proves that `walkNode` is this traversal
together with per-file bookkeeping. -/

def fileSpec (root p : CPath) (name : String) (content : Bytes)
    (tim : TreeIgnoreMatcher) : TreeIgnoreMatcher × List FileRec :=
  if name = ".gitignore" ∨ name = ".confignore" ∨ tim.Match p false then
    (tim, [])
  else (tim, [⟨p, compRel root p, content⟩])

def walkSpecEntries (root : CPath) :
    FForest → CPath → TreeIgnoreMatcher → TreeIgnoreMatcher × List FileRec
  | .nil, _, tim => (tim, [])
  | .cons n (.file content) rest, cur, tim =>
    let r1 := fileSpec root (cur ++ [n]) n content tim
    let r2 := walkSpecEntries root rest cur r1.1
    (r2.1, r1.2 ++ r2.2)
  | .cons n (.dir scope entries) rest, cur, tim =>
    let r1 :=
      if n = ".git" then (tim, [])
      else if tim.Match (cur ++ [n]) true then (tim, [])
      else walkSpecEntries root entries (cur ++ [n]) (tim.addPath (cur ++ [n]) scope)
    let r2 := walkSpecEntries root rest cur r1.1
    (r2.1, r1.2 ++ r2.2)

def walkSpecNode (root p : CPath) (name : String) (t : FTree)
    (tim : TreeIgnoreMatcher) : TreeIgnoreMatcher × List FileRec :=
  match t with
  | .file content => fileSpec root p name content tim
  | .dir scope entries =>
    if name = ".git" then (tim, [])
    else if tim.Match p true then (tim, [])
    else walkSpecEntries root entries p (tim.addPath p scope)

/-- The content key of a visited file. -/
def fileKey (pfx : CPath) (fr : FileRec) : CPath := compJoin pfx fr.rel

/-- The sub-transaction generated for a visited file. -/
def fileTxn (dg cp : Bytes → Bytes) (pfx : CPath) (fr : FileRec) : SubTxn :=
  condPutTxn (fileKey pfx fr) (compJoin (fileKey pfx fr) [".hash"])
    (cp fr.raw) (dg fr.raw)

/-- Helper: removing each element of `ks` from `l` one `filter` at a
time equals one filter by non-membership. -/
theorem filter_notMem_append (l : List CPath) (ks1 ks2 : List CPath) :
    (l.filter (fun k => decide (k ∉ ks1))).filter (fun k => decide (k ∉ ks2))
      = l.filter (fun k => decide (k ∉ ks1 ++ ks2)) := by
  rw [List.filter_filter]
  apply List.filter_congr
  intro a _
  by_cases h1 : a ∈ ks1 <;> by_cases h2 : a ∈ ks2 <;> simp [h1, h2]

theorem filter_notMem_nil (l : List CPath) :
    l.filter (fun k => decide (k ∉ ([] : List CPath))) = l := by
  simp

/-- The state shape every walk step produces: the matcher is replaced,
the deletion candidates are filtered by the visited keys, and
sub-transactions, descriptors and file records are appended in
lockstep. -/
def specShape (dg cp : Bytes → Bytes) (pfx : CPath) (st : WalkSt)
    (r : TreeIgnoreMatcher × List FileRec) : WalkSt :=
  { tim := r.1,
    tree := st.tree.filter (fun k => decide (k ∉ r.2.map (fileKey pfx))),
    ops := st.ops ++ r.2.map (fileTxn dg cp pfx),
    descs := st.descs ++ r.2.map (fun fr => (fileKey pfx fr, false)),
    files := st.files ++ r.2 }

theorem specShape_id (dg cp : Bytes → Bytes) (pfx : CPath) (st : WalkSt) :
    specShape dg cp pfx st (st.tim, []) = st := by
  ext1 <;> simp [specShape]

theorem specShape_compose (dg cp : Bytes → Bytes) (pfx : CPath) (st : WalkSt)
    (r1 r2 : TreeIgnoreMatcher × List FileRec) :
    specShape dg cp pfx (specShape dg cp pfx st r1) r2 =
      specShape dg cp pfx st (r2.1, r1.2 ++ r2.2) := by
  ext1 <;> simp [specShape]
  apply List.filter_congr
  intro a _
  exact Bool.and_comm _ _

theorem specShape_setTim (dg cp : Bytes → Bytes) (pfx : CPath) (st : WalkSt)
    (x : TreeIgnoreMatcher) (r : TreeIgnoreMatcher × List FileRec) :
    specShape dg cp pfx { st with tim := x } r = specShape dg cp pfx st r := by
  ext1 <;> simp [specShape]

theorem specShape_tim (dg cp : Bytes → Bytes) (pfx : CPath) (st : WalkSt)
    (r : TreeIgnoreMatcher × List FileRec) :
    (specShape dg cp pfx st r).tim = r.1 := rfl

theorem fileVisit_spec (dg cp : Bytes → Bytes) (pfx root p : CPath)
    (name : String) (content : Bytes) (st : WalkSt) :
    fileVisit dg cp pfx root p name content st =
      specShape dg cp pfx st (fileSpec root p name content st.tim) := by
  rw [fileVisit, fileSpec]
  by_cases hs : name = ".gitignore" ∨ name = ".confignore"
    ∨ st.tim.Match p false = true
  · simp only [hs, if_true, if_pos]
    exact (specShape_id dg cp pfx st).symm
  · simp only [hs, if_false]
    ext1 <;> simp only [specShape, List.map_cons, List.map_nil, fileKey, fileTxn]
    apply List.filter_congr
    intro k _
    simp

theorem walkEntries_spec (dg cp : Bytes → Bytes) (pfx root : CPath)
    (f : FForest) (cur : CPath) (st : WalkSt) :
    walkEntries dg cp pfx root f cur st =
      specShape dg cp pfx st (walkSpecEntries root f cur st.tim) := by
  induction f, cur, st using walkEntries.induct dg cp pfx root with
  | case1 cur st =>
    rw [walkEntries, walkSpecEntries]
    exact (specShape_id dg cp pfx st).symm
  | case2 n content rest cur st ih =>
    rw [walkEntries, walkSpecEntries]
    rw [fileVisit_spec] at ih ⊢
    rw [ih, specShape_tim, specShape_compose]
  | case3 n scope entries rest cur st ih1 ih2 =>
    rw [walkEntries, walkSpecEntries]
    by_cases hg : n = ".git"
    · rw [if_pos hg] at ih2
      rw [if_pos hg, if_pos hg, ih2]
      simp
    · by_cases hm : st.tim.Match (cur ++ [n]) true = true
      · rw [if_neg hg, if_pos hm] at ih2
        rw [if_neg hg, if_pos hm, if_neg hg, if_pos hm, ih2]
        simp
      · rw [if_neg hg, if_neg hm] at ih2
        rw [ih1, specShape_setTim] at ih2
        rw [if_neg hg, if_neg hm, if_neg hg, if_neg hm]
        rw [ih1, specShape_setTim, ih2, specShape_tim, specShape_compose]

theorem walkNode_spec (dg cp : Bytes → Bytes) (pfx root p : CPath)
    (name : String) (t : FTree) (st : WalkSt) :
    walkNode dg cp pfx root p name t st =
      specShape dg cp pfx st (walkSpecNode root p name t st.tim) := by
  match t with
  | .file content =>
    rw [walkNode, walkSpecNode]
    exact fileVisit_spec dg cp pfx root p name content st
  | .dir scope entries =>
    rw [walkNode, walkSpecNode]
    by_cases hg : name = ".git"
    · simp only [hg, if_true, if_pos]
      exact (specShape_id dg cp pfx st).symm
    · by_cases hm : st.tim.Match p true = true
      · simp only [hg, hm, if_true, if_false, if_pos]
        exact (specShape_id dg cp pfx st).symm
      · simp only [hg, hm, Bool.false_eq_true, if_false]
        rw [walkEntries_spec]
        ext1 <;> simp [specShape]

/-- The visited-file list of one push run's walk, as a pure function of
the tree and the initial matcher. -/
def pushSpec (root : CPath) (tim0 : TreeIgnoreMatcher) (t : FTree) :
    TreeIgnoreMatcher × List FileRec :=
  walkSpecNode root root (root.getLastD "/") t tim0

theorem pushWalk_eq (dg cp : Bytes → Bytes) (store0 : Store)
    (pfx root : CPath) (tim0 : TreeIgnoreMatcher) (t : FTree) :
    pushWalk dg cp store0 pfx root tim0 t =
      specShape dg cp pfx ⟨tim0, pushTree0 store0, [], [], []⟩
        (pushSpec root tim0 t) := by
  rw [pushWalk, walkNode_spec]
  rfl

theorem pushWalk_ops (dg cp : Bytes → Bytes) (store0 : Store)
    (pfx root : CPath) (tim0 : TreeIgnoreMatcher) (t : FTree) :
    (pushWalk dg cp store0 pfx root tim0 t).ops =
      (pushSpec root tim0 t).2.map (fileTxn dg cp pfx) := by
  rw [pushWalk_eq]; rfl

theorem pushWalk_files (dg cp : Bytes → Bytes) (store0 : Store)
    (pfx root : CPath) (tim0 : TreeIgnoreMatcher) (t : FTree) :
    (pushWalk dg cp store0 pfx root tim0 t).files = (pushSpec root tim0 t).2 := by
  rw [pushWalk_eq]; rfl

theorem pushWalk_descs (dg cp : Bytes → Bytes) (store0 : Store)
    (pfx root : CPath) (tim0 : TreeIgnoreMatcher) (t : FTree) :
    (pushWalk dg cp store0 pfx root tim0 t).descs =
      (pushSpec root tim0 t).2.map (fun fr => (fileKey pfx fr, false)) := by
  rw [pushWalk_eq]; rfl

theorem pushWalk_tree (dg cp : Bytes → Bytes) (store0 : Store)
    (pfx root : CPath) (tim0 : TreeIgnoreMatcher) (t : FTree) :
    (pushWalk dg cp store0 pfx root tim0 t).tree =
      (pushTree0 store0).filter
        (fun k => decide (k ∉ (pushSpec root tim0 t).2.map (fileKey pfx))) := by
  rw [pushWalk_eq]; rfl

theorem pushWalk_tim (dg cp : Bytes → Bytes) (store0 : Store)
    (pfx root : CPath) (tim0 : TreeIgnoreMatcher) (t : FTree) :
    (pushWalk dg cp store0 pfx root tim0 t).tim = (pushSpec root tim0 t).1 := by
  rw [pushWalk_eq]; rfl

/-- **C1.** For every non-ignored regular file visited during a push run,
the synchronizer appends exactly one conditional sub-transaction — the
walk phase's sub-transaction list is precisely one entry per visited
file, in order — whose guard is the conjunction "content key exists
(creation revision ≠ 0) AND companion key exists AND companion key's
stored value equals the digest of the raw (pre-compression) bytes",
whose success branch performs no operation, and whose failure branch
puts the content key (compressed bytes) and the companion key (the
digest). -/
theorem c1_condput_per_file (dg cp : Bytes → Bytes) (store0 : Store)
    (pfx root : CPath) (tim0 : TreeIgnoreMatcher) (t : FTree) :
    (pushRun dg cp store0 pfx root tim0 t).walk.ops =
      (pushRun dg cp store0 pfx root tim0 t).walk.files.map (fun fr =>
        { guard := [CmpGuard.createRevNonZero (compJoin pfx fr.rel),
                    CmpGuard.createRevNonZero (compJoin (compJoin pfx fr.rel) [".hash"]),
                    CmpGuard.valueEq (compJoin (compJoin pfx fr.rel) [".hash"]) (dg fr.raw)],
          thenOps := [],
          elseOps := [StoreOp.put (compJoin pfx fr.rel) (cp fr.raw),
                      StoreOp.put (compJoin (compJoin pfx fr.rel) [".hash"]) (dg fr.raw)] }) := by
  show (pushWalk dg cp store0 pfx root tim0 t).ops
    = (pushWalk dg cp store0 pfx root tim0 t).files.map _
  rw [pushWalk_ops, pushWalk_files]
  rfl

/-! ## The ignore model's `Match`, characterized (claim C6) -/

theorem scopeLoop_iff (scopes : List (CPath × ConfIgnoreMatcher)) (rel : CPath) :
    ∀ (fuel : Nat) (dir : CPath), dir.length < fuel →
      (scopeLoop scopes rel fuel dir = true ↔
        ∃ i, i < max dir.length 1 ∧
          confMatchesPath (lookupScope scopes (dir.take i)) rel = true) := by
  intro fuel
  induction fuel with
  | zero => intro dir h; omega
  | succ fuel ih =>
    intro dir hlen
    rw [scopeLoop]
    have hdl : dir.dropLast = dir.take (dir.length - 1) := List.dropLast_eq_take dir
    by_cases hP : confMatchesPath (lookupScope scopes dir.dropLast) rel = true
    · simp only [hP, if_true, if_pos, true_iff]
      refine ⟨dir.length - 1, by omega, ?_⟩
      rw [← hdl]
      exact hP
    · simp only [hP, Bool.false_eq_true, if_false]
      by_cases hnil : dir.dropLast = []
      · simp only [hnil, if_true, if_pos, Bool.false_eq_true, false_iff]
        have hle : dir.length ≤ 1 := by
          have := congrArg List.length hnil
          simp [List.length_dropLast] at this
          omega
        rintro ⟨i, hi, hm⟩
        have hi0 : i = 0 := by omega
        subst hi0
        rw [List.take_zero] at hm
        rw [hnil] at hP
        exact hP hm
      · simp only [hnil, if_false]
        have hn2 : 2 ≤ dir.length := by
          rcases Nat.lt_or_ge dir.length 2 with h | h
          · exfalso
            apply hnil
            have : dir.length - 1 = 0 := by omega
            rw [hdl, this, List.take_zero]
          · exact h
        have hdll : dir.dropLast.length = dir.length - 1 := List.length_dropLast dir
        rw [ih dir.dropLast (by omega)]
        constructor
        · rintro ⟨i, hi, hm⟩
          refine ⟨i, by omega, ?_⟩
          rw [hdl, List.take_take] at hm
          have : min i (dir.length - 1) = i := by omega
          rw [this] at hm
          exact hm
        · rintro ⟨i, hi, hm⟩
          have hine : i ≠ dir.length - 1 := by
            intro he
            subst he
            rw [← hdl] at hm
            exact hP hm
          refine ⟨i, by omega, ?_⟩
          rw [hdl, List.take_take]
          have : min i (dir.length - 1) = i := by omega
          rw [this]
          exact hm

/-- **C6.** `Match(path, isDir)` reports ignored exactly when the global
rule set matches the path, or the path's root-relative form does not
begin with `../` and some ancestor directory of that relative form —
walked from the nearest parent up to (and including) the synchronization
root — has a recorded scope whose rule pair matches the relative form
(the path's remainder after the root).  In particular a `..`-prefixed
relative form is never matched through scopes, and only ancestor
prefixes of the relative form are ever consulted. -/
theorem c6_match_characterization (tim : TreeIgnoreMatcher) (p : CPath)
    (isDir : Bool) :
    tim.Match p isDir = true ↔
      ((match tim.global with | some g => g p | none => false) = true
       ∨ (relEscapes (compRel tim.root p) = false ∧
          ∃ i, i < max (compRel tim.root p).length 1 ∧
            confMatchesPath
              (lookupScope tim.localScopes ((compRel tim.root p).take i))
              (compRel tim.root p) = true)) := by
  rw [TreeIgnoreMatcher.Match]
  by_cases hglob : (match tim.global with | some g => g p | none => false) = true
  · simp [hglob]
  · simp only [hglob, Bool.false_eq_true, if_false, false_or]
    by_cases hesc : relEscapes (compRel tim.root p) = true
    · simp [hesc]
    · have hesc' : relEscapes (compRel tim.root p) = false :=
        Bool.not_eq_true _ ▸ (by simpa using hesc)
      simp only [hesc', Bool.false_eq_true, if_false, true_and]
      exact scopeLoop_iff tim.localScopes (compRel tim.root p)
        ((compRel tim.root p).length + 1) (compRel tim.root p) (by omega)

/-! ## Filesystem lookup lemmas (pull side) -/

theorem fsLookup_nil (q : CPath) : fsLookup [] q = none := rfl

theorem fsLookup_cons (e : CPath × WNode) (fs : WFs) (q : CPath) :
    fsLookup (e :: fs) q = if e.1 = q then some e.2 else fsLookup fs q := by
  by_cases h : e.1 = q
  · rw [if_pos h, fsLookup, List.find?_cons_of_pos _ (by simpa using h)]
    rfl
  · rw [if_neg h, fsLookup, List.find?_cons_of_neg _ (by simpa using h)]
    rfl

theorem fsDel_cons (e : CPath × WNode) (fs : WFs) (p : CPath) :
    fsDel (e :: fs) p = if e.1 = p then fsDel fs p else e :: fsDel fs p := by
  rw [fsDel, List.filter_cons]
  by_cases h : e.1 = p <;> simp [h, fsDel]

theorem fsLookup_append (fs1 fs2 : WFs) (q : CPath) :
    fsLookup (fs1 ++ fs2) q =
      match fsLookup fs1 q with
      | some v => some v
      | none => fsLookup fs2 q := by
  induction fs1 with
  | nil => rfl
  | cons e fs1 ih =>
    rw [List.cons_append, fsLookup_cons, fsLookup_cons]
    by_cases h : e.1 = q <;> simp [h, ih]

theorem fsLookup_fsDel_ne (fs : WFs) (p q : CPath) (h : q ≠ p) :
    fsLookup (fsDel fs p) q = fsLookup fs q := by
  induction fs with
  | nil => rfl
  | cons e fs ih =>
    rw [fsDel_cons]
    by_cases hep : e.1 = p
    · rw [if_pos hep, ih, fsLookup_cons,
        if_neg (by rw [hep]; exact fun he => h he.symm)]
    · rw [if_neg hep, fsLookup_cons, fsLookup_cons]
      by_cases heq : e.1 = q <;> simp [heq, ih]

theorem fsLookup_fsDel_self (fs : WFs) (p : CPath) :
    fsLookup (fsDel fs p) p = none := by
  induction fs with
  | nil => rfl
  | cons e fs ih =>
    rw [fsDel_cons]
    by_cases hep : e.1 = p
    · rw [if_pos hep]
      exact ih
    · rw [if_neg hep, fsLookup_cons, if_neg hep]
      exact ih

theorem fsSet_eq_del_append (fs : WFs) (p : CPath) (n : WNode) :
    fsSet fs p n = fsDel fs p ++ [(p, n)] := rfl

theorem fsLookup_fsSet_ne (fs : WFs) (p q : CPath) (n : WNode) (h : q ≠ p) :
    fsLookup (fsSet fs p n) q = fsLookup fs q := by
  rw [fsSet_eq_del_append, fsLookup_append, fsLookup_fsDel_ne fs p q h]
  cases hq : fsLookup fs q with
  | some v => rfl
  | none =>
    simp only []
    rw [fsLookup_cons, if_neg (fun he => h he.symm)]
    rfl

theorem fsLookup_fsSet_self (fs : WFs) (p : CPath) (n : WNode) :
    fsLookup (fsSet fs p n) p = some n := by
  rw [fsSet_eq_del_append, fsLookup_append, fsLookup_fsDel_self]
  simp only []
  rw [fsLookup_cons, if_pos rfl]

/-! ## Atomic materialization (claim C4) -/

theorem mkdirChain_lengths (fs : WFs) :
    ∀ (fuel : Nat) (d : CPath) (l : List CPath),
      mkdirChain fs fuel d = .ok l → ∀ e ∈ l, e.length < d.length := by
  intro fuel
  induction fuel with
  | zero =>
    intro d l h e he
    rw [mkdirChain] at h
    cases h
    cases he
  | succ fuel ih =>
    intro d l h e he
    rw [mkdirChain] at h
    by_cases hnil : d.dropLast = []
    · rw [if_pos hnil] at h
      cases h
      cases he
    · rw [if_neg hnil] at h
      cases hL : fsLookup fs d.dropLast with
      | some n =>
        cases n with
        | dir =>
          rw [hL] at h
          cases h
          cases he
        | file c =>
          rw [hL] at h
          cases h
      | none =>
        rw [hL] at h
        cases hc : mkdirChain fs fuel d.dropLast with
        | error u => rw [hc] at h; cases h
        | ok l' =>
          rw [hc] at h
          have hl : l = l' ++ [d.dropLast] := by
            cases h
            rfl
          have hdlen : d.dropLast.length < d.length := by
            have hd : d ≠ [] := by
              intro hd
              apply hnil
              rw [hd]
              rfl
            have : d.length ≠ 0 := fun h0 => hd (List.eq_nil_of_length_eq_zero h0)
            rw [List.length_dropLast]
            omega
          rw [hl] at he
          rcases List.mem_append.mp he with h1 | h1
          · exact Nat.lt_trans (ih d.dropLast l' hc e h1) hdlen
          · rw [List.mem_singleton.mp h1]
            exact hdlen

theorem foldl_fsSet_lookup (q : CPath) :
    ∀ (ds : List CPath) (fs : WFs), (∀ d ∈ ds, d.length < q.length) →
      fsLookup (ds.foldl (fun a d => fsSet a d .dir) fs) q = fsLookup fs q := by
  intro ds
  induction ds with
  | nil => intro fs _; rfl
  | cons d ds ih =>
    intro fs hlen
    rw [List.foldl_cons, ih _ (fun e he => hlen e (List.mem_cons_of_mem d he))]
    exact fsLookup_fsSet_ne fs d q .dir
      (fun he => by
        have := hlen d (List.mem_cons_self d ds)
        rw [he] at this
        omega)

theorem mkdirAllM_lookup_longer (fs : WFs) (p : CPath) (fs' : WFs)
    (h : mkdirAllM fs p = .ok fs') (q : CPath) (hq : p.length < q.length) :
    fsLookup fs' q = fsLookup fs q := by
  rw [mkdirAllM] at h
  cases hL : fsLookup fs p with
  | some n =>
    cases n with
    | dir =>
      rw [hL] at h
      cases h
      rfl
    | file c => rw [hL] at h; cases h
  | none =>
    rw [hL] at h
    cases hc : mkdirChain fs p.length p with
    | error u => rw [hc] at h; cases h
    | ok chain =>
      rw [hc] at h
      have hfs : fs' = (chain ++ [p]).foldl (fun a d => fsSet a d .dir) fs := by
        cases h
        rfl
      rw [hfs]
      apply foldl_fsSet_lookup
      intro d hd
      rcases List.mem_append.mp hd with h1 | h1
      · exact Nat.lt_trans (mkdirChain_lengths fs p.length p chain hc d h1) hq
      · rw [List.mem_singleton.mp h1]
        exact hq

theorem writePhase_err_untouched (o : FsOracle) (owner : Int) (fsx : WFs)
    (path tmp : CPath) (content : Bytes) (htp : tmp ≠ path)
    (herr : (writePhase o owner fsx path tmp content).err = true)
    (htc : (writePhase o owner fsx path tmp content).tempCreated = true) :
    fsLookup (writePhase o owner fsx path tmp content).fs path
      = fsLookup fsx path
    ∧ fsLookup (writePhase o owner fsx path tmp content).fs tmp = none := by
  have hpt : path ≠ tmp := fun he => htp he.symm
  rw [writePhase] at herr htc ⊢
  by_cases h1 : o.tmpErr = true
  · rw [if_pos h1] at htc
    simp at htc
  · rw [if_neg h1] at herr htc ⊢
    by_cases h2 : o.writeErr = true
    · rw [if_pos h2] at herr htc ⊢
      refine ⟨?_, fsLookup_fsDel_self _ _⟩
      rw [fsLookup_fsDel_ne _ _ _ hpt, fsLookup_fsSet_ne _ _ _ _ hpt]
    · rw [if_neg h2] at herr htc ⊢
      by_cases h3 : o.closeErr = true
      · rw [if_pos h3] at herr htc ⊢
        refine ⟨?_, fsLookup_fsDel_self _ _⟩
        rw [fsLookup_fsDel_ne _ _ _ hpt, fsLookup_fsSet_ne _ _ _ _ hpt,
          fsLookup_fsSet_ne _ _ _ _ hpt]
      · rw [if_neg h3] at herr htc ⊢
        by_cases h4 : o.chmodErr = true
        · rw [if_pos h4] at herr htc ⊢
          refine ⟨?_, fsLookup_fsDel_self _ _⟩
          rw [fsLookup_fsDel_ne _ _ _ hpt, fsLookup_fsSet_ne _ _ _ _ hpt,
            fsLookup_fsSet_ne _ _ _ _ hpt]
        · rw [if_neg h4] at herr htc ⊢
          by_cases h5 : owner ≥ 0 ∧ o.chownErr = true
          · rw [if_pos h5] at herr htc ⊢
            refine ⟨?_, fsLookup_fsDel_self _ _⟩
            rw [fsLookup_fsDel_ne _ _ _ hpt, fsLookup_fsSet_ne _ _ _ _ hpt,
              fsLookup_fsSet_ne _ _ _ _ hpt]
          · rw [if_neg h5] at herr htc ⊢
            by_cases h6 : o.renameErr = true
            · rw [if_pos h6] at herr htc ⊢
              refine ⟨?_, fsLookup_fsDel_self _ _⟩
              rw [fsLookup_fsDel_ne _ _ _ hpt, fsLookup_fsSet_ne _ _ _ _ hpt,
                fsLookup_fsSet_ne _ _ _ _ hpt]
            · rw [if_neg h6] at herr
              simp at herr

/-- **C4.** Whenever `maybeUpdateFile` returns an error after its
temporary file was created, the temporary file has been removed and the
target path is untouched: it still resolves to exactly what it resolved
to before the call (its prior content, or absence).  The hypothesis says
the fresh temporary leaf name differs from the target's base name, which
`ioutil.TempFile`'s fresh `.temp*` naming guarantees. -/
theorem c4_materialize_atomic (o : FsOracle) (owner : Int) (fs : WFs)
    (path : CPath) (content : Bytes)
    (hleaf : o.tmpLeaf ≠ path.getLastD "")
    (herr : (maybeUpdateFileM o owner fs path content).err = true)
    (htc : (maybeUpdateFileM o owner fs path content).tempCreated = true) :
    fsLookup (maybeUpdateFileM o owner fs path content).fs path
      = fsLookup fs path
    ∧ fsLookup (maybeUpdateFileM o owner fs path content).fs
        (path.dropLast ++ [o.tmpLeaf]) = none := by
  have htp : path.dropLast ++ [o.tmpLeaf] ≠ path := by
    intro he
    have h1 := congrArg List.getLast? he
    rw [List.getLast?_concat] at h1
    apply hleaf
    cases hp : path with
    | nil =>
      rw [hp] at h1
      cases h1
    | cons a l =>
      rw [hp] at h1
      rw [List.getLastD_eq_getLast?, ← h1]
      rfl
  simp only [maybeUpdateFileM] at herr htc ⊢
  cases hL : fsLookup fs path with
  | some n =>
    cases n with
    | dir =>
      simp [hL] at htc
    | file existing =>
      simp only [hL] at herr htc ⊢
      by_cases hc : ¬ o.readErr = true ∧ existing = content
      · rw [if_pos hc] at herr
        simp at herr
      · rw [if_neg hc] at herr htc ⊢
        have hw := writePhase_err_untouched o owner fs path _ content htp herr htc
        exact ⟨hw.1.trans hL, hw.2⟩
  | none =>
    simp only [hL] at herr htc ⊢
    by_cases hpn : path.dropLast = []
    · rw [if_pos hpn] at herr htc ⊢
      have hw := writePhase_err_untouched o owner fs path _ content htp herr htc
      exact ⟨hw.1.trans hL, hw.2⟩
    · rw [if_neg hpn] at herr htc ⊢
      cases hP : fsLookup fs path.dropLast with
      | some n =>
        cases n with
        | dir =>
          simp only [hP] at herr htc ⊢
          have hw := writePhase_err_untouched o owner fs path _ content htp herr htc
          exact ⟨hw.1.trans hL, hw.2⟩
        | file c =>
          simp [hP] at htc
      | none =>
        simp only [hP] at herr htc ⊢
        by_cases hme : o.mkdirErr = true
        · rw [if_pos hme] at htc
          simp at htc
        · rw [if_neg hme] at herr htc ⊢
          cases hMk : mkdirAllM fs path.dropLast with
          | error u =>
            simp [hMk] at htc
          | ok fs' =>
            simp only [hMk] at herr htc ⊢
            have hplen : path.dropLast.length < path.length := by
              have hd : path ≠ [] := by
                intro hd
                apply hpn
                rw [hd]
                rfl
              have : path.length ≠ 0 :=
                fun h0 => hd (List.eq_nil_of_length_eq_zero h0)
              rw [List.length_dropLast]
              omega
            have hw := writePhase_err_untouched o owner fs' path _ content htp
              herr htc
            refine ⟨?_, hw.2⟩
            rw [hw.1, mkdirAllM_lookup_longer fs _ fs' hMk path hplen]
            exact hL

/-- Witness for C4: a concrete failing write (the `f.Write` error path)
against an empty filesystem leaves the never-created target absent and
the temporary file removed. -/
theorem c4_materialize_atomic_witness :
    fsLookup (maybeUpdateFileM
        ⟨false, false, false, true, false, false, false, false, "t"⟩
        (-1) [] ["a", "f"] [1]).fs ["a", "f"] = fsLookup [] ["a", "f"]
    ∧ fsLookup (maybeUpdateFileM
        ⟨false, false, false, true, false, false, false, false, "t"⟩
        (-1) [] ["a", "f"] [1]).fs
        ((["a", "f"] : CPath).dropLast ++ ["t"]) = none :=
  c4_materialize_atomic
    ⟨false, false, false, true, false, false, false, false, "t"⟩
    (-1) [] ["a", "f"] [1] (by decide) (by decide) (by decide)

/-! ## Reload debouncing (claim C5) -/

theorem processEvents_nil (decode : Bytes → Option Bytes) (owner : Int)
    (pfx root : CPath) (fs : WFs) :
    processEvents decode owner pfx root fs [] = (fs, [], []) := rfl

theorem processEvents_cons (decode : Bytes → Option Bytes) (owner : Int)
    (pfx root : CPath) (fs : WFs) (ev : WEvent) (o : FsOracle)
    (rest : List (WEvent × FsOracle)) :
    processEvents decode owner pfx root fs ((ev, o) :: rest) =
      ((processEvents decode owner pfx root
          (processEvent decode o owner pfx root fs ev).1 rest).1,
       (processEvent decode o owner pfx root fs ev).2.1
         :: (processEvents decode owner pfx root
              (processEvent decode o owner pfx root fs ev).1 rest).2.1,
       (processEvent decode o owner pfx root fs ev).2.2
         ++ (processEvents decode owner pfx root
              (processEvent decode o owner pfx root fs ev).1 rest).2.2) := rfl

theorem processEvent_no_reload (decode : Bytes → Option Bytes) (o : FsOracle)
    (owner : Int) (pfx root : CPath) (fs : WFs) (ev : WEvent) :
    WAct.reload ∉ (processEvent decode o owner pfx root fs ev).2.2 := by
  cases ev with
  | put key v =>
    rw [processEvent]
    simp only [WEvent.key]
    cases hk : compKeyRelPath pfx key with
    | none => simp [hk]
    | some rel =>
      simp only [hk]
      cases hd : decode v with
      | none => simp [hd]
      | some data => simp [hd]
  | del key =>
    rw [processEvent]
    simp only [WEvent.key]
    cases hk : compKeyRelPath pfx key with
    | none => simp [hk]
    | some rel =>
      simp only [hk]
      by_cases hok : (handleDelete root (compJoin root rel) fs).2.2 = true
      · simp only [hok, if_true, if_pos]
        intro hmem
        rcases List.mem_cons.mp hmem with h | h
        · cases h
        · rcases List.mem_map.mp h with ⟨d, _, hd⟩
          cases hd
      · simp [hok]

theorem processEvents_no_reload (decode : Bytes → Option Bytes) (owner : Int)
    (pfx root : CPath) :
    ∀ (evs : List (WEvent × FsOracle)) (fs : WFs),
      WAct.reload ∉ (processEvents decode owner pfx root fs evs).2.2 := by
  intro evs
  induction evs with
  | nil => intro fs; simp [processEvents_nil]
  | cons eo rest ih =>
    intro fs
    cases eo with
    | mk ev o =>
      rw [processEvents_cons]
      intro hmem
      rcases List.mem_append.mp hmem with h | h
      · exact processEvent_no_reload decode o owner pfx root fs ev h
      · exact ih _ h

/-- **C5.** For every watch response: the reload command is run exactly
once when at least one of the response's put-event materializations
changed content, and not at all otherwise; when run, it comes after the
entire batch (it is the last action).  The per-event changed flags are
exactly the materialization results collected while applying the
batch. -/
theorem c5_reload_debounce (decode : Bytes → Option Bytes) (owner : Int)
    (pfx root : CPath) (fs : WFs) (evs : List (WEvent × FsOracle)) :
    ((processResponse decode owner pfx root fs evs).2.count WAct.reload
      = if 0 < ((processEvents decode owner pfx root fs evs).2.1.count true)
        then 1 else 0)
    ∧ (0 < ((processEvents decode owner pfx root fs evs).2.1.count true) →
        (processResponse decode owner pfx root fs evs).2.getLast?
          = some WAct.reload)
    ∧ (((processEvents decode owner pfx root fs evs).2.1.count true) = 0 →
        WAct.reload ∉ (processResponse decode owner pfx root fs evs).2) := by
  have hnr := processEvents_no_reload decode owner pfx root evs fs
  have hcz : (processEvents decode owner pfx root fs evs).2.2.count WAct.reload
      = 0 := List.count_eq_zero.mpr hnr
  rw [processResponse]
  by_cases hc : 0 < ((processEvents decode owner pfx root fs evs).2.1.count true)
  · simp only [if_pos hc]
    refine ⟨?_, ?_, ?_⟩
    · rw [List.count_append, hcz]
      rfl
    · intro _
      exact List.getLast?_concat _
    · intro h0
      omega
  · simp only [if_neg hc]
    refine ⟨?_, ?_, ?_⟩
    · exact hcz
    · intro h0
      exact absurd h0 hc
    · intro _
      exact hnr

/-- Witness for C5: one content-changing put event produces a batch
whose last action is the single reload. -/
theorem c5_reload_debounce_witness :
    0 < ((processEvents (fun b => some b) (-1) ["p"] ["r"] []
      [(WEvent.put ["p", "x"] [1],
        ⟨false, false, false, false, false, false, false, false, "t"⟩)]).2.1.count true)
    ∧ (processResponse (fun b => some b) (-1) ["p"] ["r"] []
      [(WEvent.put ["p", "x"] [1],
        ⟨false, false, false, false, false, false, false, false, "t"⟩)]).2.getLast?
      = some WAct.reload :=
  ⟨by decide,
   (c5_reload_debounce (fun b => some b) (-1) ["p"] ["r"] []
      [(WEvent.put ["p", "x"] [1],
        ⟨false, false, false, false, false, false, false, false, "t"⟩)]).2.1
     (by decide)⟩

/-! ## Key resolution stays inside the root (claims C8, C9) -/

theorem goRel_self (s : GoStr) : goRel s s = some ['.'] := by
  rw [goRel]
  simp

theorem goBase_no_slash (s : GoStr) :
    goBase s = ['/'] ∨ '/' ∉ goBase s := by
  rw [goBase]
  by_cases h0 : s = []
  · rw [if_pos h0]
    right
    simp
  · rw [if_neg h0]
    by_cases h1 : dropTrailing (fun c => c = '/') s = []
    · rw [if_pos h1]
      left
      rfl
    · rw [if_neg h1]
      right
      intro hmem
      rw [List.mem_reverse] at hmem
      have := List.mem_takeWhile_imp hmem
      simp at this

theorem not_dotdot_pfx_of_no_slash (r : GoStr)
    (h : r = ['/'] ∨ '/' ∉ r) : hasPfx "../".data r = false := by
  rcases h with h | h
  · rw [h]
    decide
  · by_cases hp : hasPfx "../".data r = true
    · exfalso
      rw [hasPfx, List.isPrefixOf_iff_prefix] at hp
      exact h (hp.subset (by decide))
    · simpa using hp

/-- Resolved relative paths never begin with `../`. -/
theorem keyRelPath_no_escape (pfx key rel : GoStr)
    (h : keyRelPath pfx key = some rel) : hasPfx "../".data rel = false := by
  rw [keyRelPath] at h
  by_cases hkp : key = pfx
  · rw [if_pos hkp] at h
    have hr : rel = goBase key := by
      cases h
      rfl
    rw [hr]
    exact not_dotdot_pfx_of_no_slash _ (goBase_no_slash key)
  · rw [if_neg hkp] at h
    cases hg : goRel pfx key with
    | none =>
      simp only [hg] at h
      cases h
    | some r =>
      simp only [hg] at h
      by_cases hc : hasPfx "../".data r = true ∨ goBase r = ".hash".data
      · rw [if_pos hc] at h
        cases h
      · rw [if_neg hc] at h
        have hr : rel = r := by
          cases h
          rfl
        rw [hr]
        rcases Bool.eq_false_or_eq_true (hasPfx "../".data r) with ht | hf
        · exact absurd (Or.inl ht) hc
        · exact hf

/-- **C9.** A key whose byte string extends the watch prefix but whose
path escapes it (its path relative to the prefix begins with `../`) is
skipped: the watcher performs no filesystem action for it.
Consequently every file path the watcher creates, replaces or unlinks is
the root joined with a relative path that does not begin with `../`. -/
theorem c9_no_escape_outside_root (pfx root : GoStr) :
    (∀ key rel, hasPfx pfx key = true → goRel pfx key = some rel →
      hasPfx "../".data rel = true → eventFileTargets pfx root key = [])
    ∧ (∀ key tgt, tgt ∈ eventFileTargets pfx root key →
        ∃ rel, keyRelPath pfx key = some rel
          ∧ hasPfx "../".data rel = false ∧ tgt = goJoin root rel) := by
  constructor
  · intro key rel _ hrel hesc
    by_cases hkp : key = pfx
    · subst hkp
      rw [goRel_self] at hrel
      have : rel = ['.'] := by
        cases hrel
        rfl
      rw [this] at hesc
      simp [hasPfx] at hesc
    · simp only [eventFileTargets, keyRelPath, if_neg hkp, hrel]
      rw [if_pos (Or.inl hesc)]
  · intro key tgt hmem
    rw [eventFileTargets] at hmem
    cases hk : keyRelPath pfx key with
    | none =>
      rw [hk] at hmem
      cases hmem
    | some rel =>
      rw [hk] at hmem
      refine ⟨rel, rfl, keyRelPath_no_escape pfx key rel hk, ?_⟩
      rcases List.mem_singleton.mp hmem with h
      exact h

/-- Witness for C9: the prefix `/a/b` with the byte-extending but
escaping key `/a/bc`. -/
theorem c9_no_escape_outside_root_witness :
    hasPfx "/a/b".data "/a/bc".data = true
    ∧ goRel "/a/b".data "/a/bc".data = some "../bc".data
    ∧ hasPfx "../".data "../bc".data = true
    ∧ eventFileTargets "/a/b".data "/r".data "/a/bc".data = [] :=
  ⟨by decide, by decide, by decide,
   (c9_no_escape_outside_root "/a/b".data "/r".data).1 "/a/bc".data
     "../bc".data (by decide) (by decide) (by decide)⟩

/-- **C8, counterexample.**  A key exactly equal to the watch prefix is
materialized at the root joined with the *prefix's* base name, not the
root's base name as the claim states: with prefix `/svc/app` and root
`/etc/conf` the code targets `/etc/conf/app`, while the claim predicts
`/etc/conf/conf`. -/
theorem c8_counterexample :
    syncTarget "/svc/app".data "/etc/conf".data "/svc/app".data
      = some "/etc/conf/app".data
    ∧ goJoin "/etc/conf".data (goBase "/etc/conf".data)
      = "/etc/conf/conf".data
    ∧ syncTarget "/svc/app".data "/etc/conf".data "/svc/app".data
      ≠ some (goJoin "/etc/conf".data (goBase "/etc/conf".data)) := by
  refine ⟨by decide, by decide, ?_⟩
  decide

/-- **C8, amended.**  During pull-side key resolution: a key other than
the prefix itself whose prefix-relative form fails to resolve, escapes
(`../`-prefixed) or has base name `.hash` is skipped; every other such
key is materialized at the root joined with its prefix-relative path;
and a key exactly equal to the watch prefix is materialized at the root
joined with the *prefix's* base name. -/
theorem c8_amended_resolution (pfx root key : GoStr) :
    (key = pfx → syncTarget pfx root key = some (goJoin root (goBase pfx)))
    ∧ (key ≠ pfx → goRel pfx key = none → syncTarget pfx root key = none)
    ∧ (key ≠ pfx → ∀ rel, goRel pfx key = some rel →
        (hasPfx "../".data rel = true ∨ goBase rel = ".hash".data) →
        syncTarget pfx root key = none)
    ∧ (key ≠ pfx → ∀ rel, goRel pfx key = some rel →
        hasPfx "../".data rel = false → goBase rel ≠ ".hash".data →
        syncTarget pfx root key = some (goJoin root rel)) := by
  refine ⟨?_, ?_, ?_, ?_⟩
  · intro hkp
    subst hkp
    rw [syncTarget, keyRelPath, if_pos rfl]
    rfl
  · intro hkp hg
    simp only [syncTarget, keyRelPath, if_neg hkp, hg]
    rfl
  · intro hkp rel hg hskip
    simp only [syncTarget, keyRelPath, if_neg hkp, hg]
    rw [if_pos hskip]
    rfl
  · intro hkp rel hg h1 h2
    simp only [syncTarget, keyRelPath, if_neg hkp, hg]
    rw [if_neg (by
      rintro (h | h)
      · rw [h1] at h
        cases h
      · exact h2 h)]
    rfl

/-- Witness for the amended C8: prefix `/svc/app`, root `/etc/conf`, the
key equal to the prefix resolves to `/etc/conf/app`. -/
theorem c8_amended_resolution_witness :
    syncTarget "/svc/app".data "/etc/conf".data "/svc/app".data
      = some (goJoin "/etc/conf".data (goBase "/svc/app".data)) :=
  (c8_amended_resolution "/svc/app".data "/etc/conf".data "/svc/app".data).1 rfl

/-! ## Deletion candidates (claim C2) -/

/-- Look up an entry by name in a forest. -/
def fforestFind : FForest → String → Option FTree
  | .nil, _ => none
  | .cons m t rest, n => if m = n then some t else fforestFind rest n

/-- Resolve a root-relative component path in a local tree. -/
def lookupTree : CPath → FTree → Option FTree
  | [], t => some t
  | _ :: _, .file _ => none
  | n :: rest, .dir _ es =>
    match fforestFind es n with
    | some t => lookupTree rest t
    | none => none

/-- Whether a resolved node is a present regular file. -/
def isRegularFile : Option FTree → Bool
  | some (.file _) => true
  | _ => false

/-- **C2, counterexample.**  A push run over a store holding the key
`p/.gitignore` and a local tree containing a regular file `.gitignore`
(not matched by any ignore rule) appends a deletion for that key even
though the corresponding local path exists as a regular file and is not
matched as ignored: deletion does not imply ignored-or-absent. -/
theorem c2_counterexample :
    (pushRun (fun b => b) (fun b => b) [(["p", ".gitignore"], [0])] ["p"]
        ["etc", "app"] ⟨["etc", "app"], none, []⟩
        (.dir none (.cons ".gitignore" (.file [1]) .nil))).delKeys
      = [["p", ".gitignore"]]
    ∧ (pushRun (fun b => b) (fun b => b) [(["p", ".gitignore"], [0])] ["p"]
        ["etc", "app"] ⟨["etc", "app"], none, []⟩
        (.dir none (.cons ".gitignore" (.file [1]) .nil))).walk.tim.Match
        (compJoin ["etc", "app"] (compRel ["p"] ["p", ".gitignore"])) false
      = false
    ∧ isRegularFile (lookupTree (compRel ["p"] ["p", ".gitignore"])
        (.dir none (.cons ".gitignore" (.file [1]) .nil))) = true := by
  refine ⟨?_, ?_, ?_⟩ <;> decide

/-- **C2, amended.**  A key is deleted only if it was present in the
initial store listing (excluding fingerprint companions), the Ignore
Model re-check at its joined local path reports *not* ignored, and no
file visited by the walk produced that key — so the corresponding local
path is absent, a directory, an ignore-rule file (`.gitignore` /
`.confignore`), or inside a pruned subtree; it may therefore still exist
locally. -/
theorem c2_amended_delete_only_unvisited (dg cp : Bytes → Bytes)
    (store0 : Store) (pfx root : CPath) (tim0 : TreeIgnoreMatcher) (t : FTree) :
    ∀ k ∈ (pushRun dg cp store0 pfx root tim0 t).delKeys,
      k ∈ pushTree0 store0
      ∧ (pushRun dg cp store0 pfx root tim0 t).walk.tim.Match
          (compJoin root (compRel pfx k)) false = false
      ∧ k ∉ (pushRun dg cp store0 pfx root tim0 t).walk.files.map (fileKey pfx) := by
  intro k hk
  have hdk : (pushRun dg cp store0 pfx root tim0 t).delKeys
      = pushDelKeys dg cp store0 pfx root tim0 t := rfl
  rw [hdk, pushDelKeys] at hk
  have h1 := List.mem_filter.mp hk
  have h2 : k ∈ (pushTree0 store0).filter
      (fun k => decide (k ∉ (pushSpec root tim0 t).2.map (fileKey pfx))) := by
    rw [← pushWalk_tree dg cp store0 pfx root tim0 t]
    exact h1.1
  have h3 := List.mem_filter.mp h2
  refine ⟨h3.1, ?_, ?_⟩
  · have := of_decide_eq_true h1.2
    show (pushWalk dg cp store0 pfx root tim0 t).tim.Match _ false = false
    rcases Bool.eq_false_or_eq_true
      ((pushWalk dg cp store0 pfx root tim0 t).tim.Match
        (compJoin root (compRel pfx k)) false) with ht | hf
    · exact absurd ht this
    · exact hf
  · show k ∉ (pushWalk dg cp store0 pfx root tim0 t).files.map (fileKey pfx)
    rw [pushWalk_files]
    exact of_decide_eq_true h3.2

/-! ## Directory pruning (claim C7) -/

theorem fsLookup_filter_pred_true (P : CPath → Bool) (fs : WFs) (d : CPath)
    (h : P d = true) :
    fsLookup (fs.filter (fun e => P e.1)) d = fsLookup fs d := by
  induction fs with
  | nil => rfl
  | cons e fs ih =>
    rw [List.filter_cons]
    by_cases he : P e.1 = true
    · rw [if_pos he, fsLookup_cons, fsLookup_cons]
      by_cases heq : e.1 = d <;> simp [heq, ih]
    · rw [if_neg he, fsLookup_cons]
      by_cases heq : e.1 = d
      · rw [heq] at he
        exact absurd h he
      · rw [if_neg heq]
        exact ih

theorem fsLookup_filter_pred_false (P : CPath → Bool) (fs : WFs) (d : CPath)
    (h : P d = false) :
    fsLookup (fs.filter (fun e => P e.1)) d = none := by
  induction fs with
  | nil => rfl
  | cons e fs ih =>
    rw [List.filter_cons]
    by_cases he : P e.1 = true
    · rw [if_pos he, fsLookup_cons]
      by_cases heq : e.1 = d
      · rw [heq] at he
        rw [he] at h
        cases h
      · rw [if_neg heq]
        exact ih
    · rw [if_neg he]
      exact ih

theorem take_dropLast (l : List String) (i : Nat) (h : i ≤ l.length - 1) :
    l.dropLast.take i = l.take i := by
  rw [List.dropLast_eq_take, List.take_take]
  congr 1
  omega

theorem append_eq_self_iff (root x : CPath) : root ++ x = root ↔ x = [] := by
  constructor
  · intro h
    have := congrArg List.length h
    rw [List.length_append] at this
    exact List.eq_nil_of_length_eq_zero (by omega)
  · intro h
    rw [h, List.append_nil]

/-- One-step unfolding of the pruning loop in the stepping case. -/
theorem pruneLoop_step (root d : CPath) (fs : WFs)
    (h1 : ¬ d.dropLast = root) (h2 : ¬ d.dropLast = []) :
    pruneLoop root d fs =
      ((pruneLoop root d.dropLast (maybeRemoveDirM fs d.dropLast).2).1,
       if (maybeRemoveDirM fs d.dropLast).1 then
         d.dropLast :: (pruneLoop root d.dropLast (maybeRemoveDirM fs d.dropLast).2).2
       else (pruneLoop root d.dropLast (maybeRemoveDirM fs d.dropLast).2).2) := by
  rw [pruneLoop]
  rw [if_neg h1, dif_neg h2]

theorem pruneLoop_base (root d : CPath) (fs : WFs) (h1 : d.dropLast = root) :
    pruneLoop root d fs = (fs, []) := by
  rw [pruneLoop, if_pos h1]

/-- The behaviour of one `maybeRemoveDir` call, by cases. -/
theorem maybeRemoveDirM_cases (fs : WFs) (d : CPath) :
    ((maybeRemoveDirM fs d).1 = true
      ∧ fsLookup fs d = some .dir ∧ fsNonEmptyDir fs d = false
      ∧ (maybeRemoveDirM fs d).2 = fsDel fs d)
    ∨ ((maybeRemoveDirM fs d).1 = false ∧ (maybeRemoveDirM fs d).2 = fs
        ∧ (fsLookup fs d = some .dir → fsNonEmptyDir fs d = true)) := by
  rw [maybeRemoveDirM]
  cases hL : fsLookup fs d with
  | none => right; exact ⟨rfl, rfl, fun h => by cases h⟩
  | some n =>
    cases n with
    | file c => right; exact ⟨rfl, rfl, fun h => by cases h⟩
    | dir =>
      by_cases hne : fsNonEmptyDir fs d = true
      · rw [if_pos hne]
        right
        exact ⟨rfl, rfl, fun _ => hne⟩
      · rw [if_neg hne]
        left
        refine ⟨rfl, rfl, ?_, rfl⟩
        rcases Bool.eq_false_or_eq_true (fsNonEmptyDir fs d) with h | h
        · exact absurd h hne
        · exact h

/-- The full specification of the ancestor-pruning loop run from
`root ++ rel`: (1) the final filesystem is the initial one minus exactly
the removed directories; (2) every removed directory is a proper ancestor
of the start path strictly below the root; (3) everything strictly below
a removed directory had itself been removed (only empty directories are
removed); (4) in the final filesystem no surviving ancestor strictly
below the root is an empty directory. -/
theorem pruneLoop_spec (root : CPath) :
    ∀ (n : Nat) (rel : CPath) (fs : WFs), rel.length = n → rel ≠ [] →
      (pruneLoop root (root ++ rel) fs).1
        = fs.filter (fun e => decide (e.1 ∉ (pruneLoop root (root ++ rel) fs).2))
      ∧ (∀ d ∈ (pruneLoop root (root ++ rel) fs).2,
          ∃ i, 1 ≤ i ∧ i < rel.length ∧ d = root ++ rel.take i)
      ∧ (∀ d ∈ (pruneLoop root (root ++ rel) fs).2, ∀ e ∈ fs,
          d <+: e.1 → e.1 ≠ d → e.1 ∈ (pruneLoop root (root ++ rel) fs).2)
      ∧ (∀ i, 1 ≤ i → i < rel.length →
          fsLookup (pruneLoop root (root ++ rel) fs).1 (root ++ rel.take i)
            = some WNode.dir →
          fsNonEmptyDir (pruneLoop root (root ++ rel) fs).1 (root ++ rel.take i)
            = true) := by
  intro n
  induction n using Nat.strong_induction_on with
  | _ n ih =>
    intro rel fs hlen hne
    have hdrop : (root ++ rel).dropLast = root ++ rel.dropLast :=
      List.dropLast_append_of_ne_nil root hne
    by_cases h1 : rel.dropLast = []
    · have hcond : (root ++ rel).dropLast = root := by
        rw [hdrop, h1, List.append_nil]
      rw [pruneLoop_base root (root ++ rel) fs hcond]
      refine ⟨by simp, ?_, ?_, ?_⟩
      · intro d hd
        cases hd
      · intro d hd
        cases hd
      · intro i hi1 hi2 _
        have hl1 := congrArg List.length h1
        rw [List.length_dropLast, List.length_nil] at hl1
        omega
    · have hn2 : 2 ≤ rel.length := by
        rcases Nat.lt_or_ge rel.length 2 with h | h
        · exfalso
          apply h1
          rw [List.dropLast_eq_take]
          have : rel.length - 1 = 0 := by omega
          rw [this, List.take_zero]
        · exact h
      have hcond1 : ¬ (root ++ rel).dropLast = root := by
        rw [hdrop]
        intro he
        exact h1 ((append_eq_self_iff root rel.dropLast).mp he)
      have hcond2 : ¬ (root ++ rel).dropLast = [] := by
        rw [hdrop]
        intro he
        rcases List.append_eq_nil.mp he with ⟨_, h⟩
        exact h1 h
      rw [pruneLoop_step root (root ++ rel) fs hcond1 hcond2, hdrop]
      have hlen' : rel.dropLast.length = n - 1 := by
        rw [List.length_dropLast]
        omega
      have IH := ih (n - 1) (by omega) rel.dropLast
        (maybeRemoveDirM fs (root ++ rel.dropLast)).2 hlen' h1
      rcases maybeRemoveDirM_cases fs (root ++ rel.dropLast) with
        ⟨hrem, hLdir, hNE, hfs1⟩ | ⟨hrem, hfs1, hNEdir⟩
      · -- the nearest ancestor was empty and removed
        rw [hfs1] at IH
        rw [hrem, if_pos rfl, hfs1]
        obtain ⟨IH1, IH2, IH3, IH4⟩ := IH
        have hself : root ++ rel.dropLast
            ∉ (pruneLoop root (root ++ rel.dropLast) (fsDel fs (root ++ rel.dropLast))).2 := by
          intro hmem
          rcases IH2 _ hmem with ⟨i, hi1, hi2, hieq⟩
          have := congrArg List.length hieq
          rw [List.length_append, List.length_append, List.length_dropLast,
            List.length_take] at this
          omega
        refine ⟨?_, ?_, ?_, ?_⟩
        · -- final fs = fs minus (d' :: rest)
          rw [IH1]
          rw [show fsDel fs (root ++ rel.dropLast)
              = fs.filter (fun e => decide (e.1 ≠ root ++ rel.dropLast)) from rfl]
          rw [List.filter_filter]
          apply List.filter_congr
          intro e _
          by_cases he1 : e.1 = root ++ rel.dropLast
          · simp [he1, hself]
          · by_cases he2 : e.1
                ∈ (pruneLoop root (root ++ rel.dropLast)
                    (fsDel fs (root ++ rel.dropLast))).2 <;>
              simp [he1, he2]
        · intro d hd
          rcases List.mem_cons.mp hd with hd | hd
          · refine ⟨rel.length - 1, by omega, by omega, ?_⟩
            rw [hd, List.dropLast_eq_take, hlen]
          · rcases IH2 d hd with ⟨i, hi1, hi2, hieq⟩
            refine ⟨i, hi1, by omega, ?_⟩
            rw [hieq, take_dropLast rel i (by omega)]
        · intro d hd e he hpre hneq
          rcases List.mem_cons.mp hd with hd | hd
          · -- d is the removed nearest ancestor: it was empty
            exfalso
            have hany : fs.any
                (fun e => (root ++ rel.dropLast).isPrefixOf e.1
                  ∧ e.1 ≠ root ++ rel.dropLast) = false := hNE
            rw [List.any_eq_false] at hany
            apply hany e he
            rw [← hd]
            simp only [decide_eq_true_eq]
            exact ⟨(List.isPrefixOf_iff_prefix).mpr hpre, hneq⟩
          · by_cases he1 : e.1 = root ++ rel.dropLast
            · rw [he1]
              exact List.mem_cons_self _ _
            · have he' : e ∈ fsDel fs (root ++ rel.dropLast) := by
                rw [fsDel, List.mem_filter]
                exact ⟨he, by simpa using he1⟩
              exact List.mem_cons_of_mem _ (IH3 d hd e he' hpre hneq)
        · intro i hi1 hi2 hdir
          rcases Nat.lt_or_ge i (rel.length - 1) with hlt | hge
          · have := IH4 i hi1 (by omega)
            rw [take_dropLast rel i (by omega)] at this
            exact this hdir
          · -- i = rel.length - 1: this is the removed directory, absent now
            have hieq : i = rel.length - 1 := by omega
            exfalso
            have hieq2 : rel.take i = rel.dropLast := by
              rw [hieq, List.dropLast_eq_take]
            rw [hieq2, IH1] at hdir
            rw [fsLookup_filter_pred_true
                (fun k => decide (k ∉ (pruneLoop root (root ++ rel.dropLast)
                  (fsDel fs (root ++ rel.dropLast))).2))
                (fsDel fs (root ++ rel.dropLast)) _ (by simpa using hself)] at hdir
            rw [fsLookup_fsDel_self] at hdir
            cases hdir
      · -- the nearest ancestor was not removed
        rw [hfs1] at IH
        rw [hrem, hfs1]
        rw [show (if (false = true) then
            (root ++ rel.dropLast) :: (pruneLoop root (root ++ rel.dropLast) fs).2
          else (pruneLoop root (root ++ rel.dropLast) fs).2)
            = (pruneLoop root (root ++ rel.dropLast) fs).2 from by
          rw [if_neg (by simp)]]
        obtain ⟨IH1, IH2, IH3, IH4⟩ := IH
        have hlenbound : ∀ d ∈ (pruneLoop root (root ++ rel.dropLast) fs).2,
            d.length < (root ++ rel.dropLast).length := by
          intro d hd
          rcases IH2 d hd with ⟨i, hi1, hi2, hieq⟩
          rw [hieq, List.length_append, List.length_append,
            List.length_dropLast, List.length_take]
          omega
        refine ⟨IH1, ?_, ?_, ?_⟩
        · intro d hd
          rcases IH2 d hd with ⟨i, hi1, hi2, hieq⟩
          refine ⟨i, hi1, by omega, ?_⟩
          rw [hieq, take_dropLast rel i (by omega)]
        · exact IH3
        · intro i hi1 hi2 hdir
          rcases Nat.lt_or_ge i (rel.length - 1) with hlt | hge
          · have := IH4 i hi1 (by omega)
            rw [take_dropLast rel i (by omega)] at this
            exact this hdir
          · -- i = rel.length - 1: the non-removed nearest ancestor
            have hieq : rel.take i = rel.dropLast := by
              rw [List.dropLast_eq_take]
              congr 1
              omega
            rw [hieq] at hdir ⊢
            rw [IH1] at hdir ⊢
            have hnotin : (root ++ rel.dropLast)
                ∉ (pruneLoop root (root ++ rel.dropLast) fs).2 := by
              intro hmem
              have := hlenbound _ hmem
              omega
            rw [fsLookup_filter_pred_true
                (fun k => decide (k ∉ (pruneLoop root (root ++ rel.dropLast) fs).2))
                fs _ (by simpa using hnotin)] at hdir
            have hNE := hNEdir hdir
            -- the witness entry strictly below survives to the final fs
            have hany : fs.any
                (fun e => (root ++ rel.dropLast).isPrefixOf e.1
                  ∧ e.1 ≠ root ++ rel.dropLast) = true := hNE
            rw [List.any_eq_true] at hany
            rcases hany with ⟨e, he, hprop⟩
            simp only [decide_eq_true_eq] at hprop
            have hsurv : e ∈ fs.filter
                (fun e => decide (e.1 ∉ (pruneLoop root (root ++ rel.dropLast) fs).2)) := by
              rw [List.mem_filter]
              refine ⟨he, ?_⟩
              simp only [decide_eq_true_eq]
              intro hmem
              have hlb := hlenbound _ hmem
              have hpl := List.IsPrefix.length_le
                ((List.isPrefixOf_iff_prefix).mp hprop.1)
              omega
            rw [fsNonEmptyDir, List.any_eq_true]
            exact ⟨e, hsurv, by
              simp only [decide_eq_true_eq]
              exact hprop⟩

/-- **C7.** After a delete event for a file strictly below the watcher
root whose unlink succeeds: (a) the unlink is reported; (b) every
directory removed by the upward walk is a proper ancestor of the file
strictly below the session root — in particular (c) the root itself is
never removed and (d) its entry is untouched; (e) everything strictly
inside a removed directory was the unlinked file itself or a directory
removed earlier (no non-empty directory is removed); and (f) in the
final filesystem no surviving ancestor strictly below the root is left
as an empty directory (every now-empty ancestor was removed, the walk
stopping at the first non-empty ancestor). -/
theorem c7_prune_now_empty_ancestors (root rel : CPath) (fs : WFs) (b : Bytes)
    (hrel : rel ≠ [])
    (hfile : fsLookup fs (root ++ rel) = some (.file b)) :
    (handleDelete root (root ++ rel) fs).2.2 = true
    ∧ (∀ d ∈ (handleDelete root (root ++ rel) fs).2.1,
        ∃ i, 1 ≤ i ∧ i < rel.length ∧ d = root ++ rel.take i)
    ∧ root ∉ (handleDelete root (root ++ rel) fs).2.1
    ∧ fsLookup (handleDelete root (root ++ rel) fs).1 root = fsLookup fs root
    ∧ (∀ d ∈ (handleDelete root (root ++ rel) fs).2.1, ∀ e ∈ fs,
        d <+: e.1 → e.1 ≠ d →
        e.1 = root ++ rel ∨ e.1 ∈ (handleDelete root (root ++ rel) fs).2.1)
    ∧ (∀ i, 1 ≤ i → i < rel.length →
        fsLookup (handleDelete root (root ++ rel) fs).1 (root ++ rel.take i)
          = some WNode.dir →
        fsNonEmptyDir (handleDelete root (root ++ rel) fs).1 (root ++ rel.take i)
          = true) := by
  have hunfold : handleDelete root (root ++ rel) fs =
      ((pruneLoop root (root ++ rel) (fsDel fs (root ++ rel))).1,
       (pruneLoop root (root ++ rel) (fsDel fs (root ++ rel))).2, true) := by
    rw [handleDelete, hfile]
  obtain ⟨P1, P2, P3, P4⟩ := pruneLoop_spec root rel.length rel
    (fsDel fs (root ++ rel)) rfl hrel
  have hrootlen : ∀ d ∈ (pruneLoop root (root ++ rel) (fsDel fs (root ++ rel))).2,
      root.length < d.length := by
    intro d hd
    rcases P2 d hd with ⟨i, hi1, hi2, hieq⟩
    rw [hieq, List.length_append, List.length_take]
    have : rel.length ≠ 0 := fun h0 => hrel (List.eq_nil_of_length_eq_zero h0)
    omega
  have hrootmem : root ∉ (pruneLoop root (root ++ rel) (fsDel fs (root ++ rel))).2 := by
    intro hmem
    have := hrootlen root hmem
    omega
  rw [hunfold]
  refine ⟨rfl, P2, hrootmem, ?_, ?_, P4⟩
  · rw [P1]
    rw [fsLookup_filter_pred_true
        (fun k => decide (k ∉ (pruneLoop root (root ++ rel) (fsDel fs (root ++ rel))).2))
        (fsDel fs (root ++ rel)) root (by simpa using hrootmem)]
    apply fsLookup_fsDel_ne
    intro he
    exact hrel ((append_eq_self_iff root rel).mp he.symm)
  · intro d hd e he hpre hneq
    by_cases hefn : e.1 = root ++ rel
    · exact Or.inl hefn
    · refine Or.inr (P3 d hd e ?_ hpre hneq)
      rw [fsDel, List.mem_filter]
      exact ⟨he, by simpa using hefn⟩

/-- Witness for C7: deleting the only file of `r/a/b` removes the two
now-empty ancestors `r/a/b` and `r/a` but not the root `r`. -/
theorem c7_prune_now_empty_ancestors_witness :
    (handleDelete ["r"] (["r"] ++ ["a", "b", "f"])
      [(["r"], WNode.dir), (["r", "a"], WNode.dir),
       (["r", "a", "b"], WNode.dir),
       (["r", "a", "b", "f"], WNode.file [1])]).2.2 = true
    ∧ ["r"] ∉ (handleDelete ["r"] (["r"] ++ ["a", "b", "f"])
      [(["r"], WNode.dir), (["r", "a"], WNode.dir),
       (["r", "a", "b"], WNode.dir),
       (["r", "a", "b", "f"], WNode.file [1])]).2.1 :=
  ⟨(c7_prune_now_empty_ancestors ["r"] ["a", "b", "f"]
      [(["r"], WNode.dir), (["r", "a"], WNode.dir),
       (["r", "a", "b"], WNode.dir),
       (["r", "a", "b", "f"], WNode.file [1])] [1]
      (by decide) (by decide)).1,
   (c7_prune_now_empty_ancestors ["r"] ["a", "b", "f"]
      [(["r"], WNode.dir), (["r", "a"], WNode.dir),
       (["r", "a", "b"], WNode.dir),
       (["r", "a", "b", "f"], WNode.file [1])] [1]
      (by decide) (by decide)).2.2.1⟩

/-- Witness for the amended C2, at the counterexample's input. -/
theorem c2_amended_delete_only_unvisited_witness :
    ["p", ".gitignore"] ∈ pushTree0 [(["p", ".gitignore"], ([0] : Bytes))]
    ∧ (pushRun (fun b => b) (fun b => b) [(["p", ".gitignore"], [0])] ["p"]
        ["etc", "app"] ⟨["etc", "app"], none, []⟩
        (.dir none (.cons ".gitignore" (.file [1]) .nil))).walk.tim.Match
        (compJoin ["etc", "app"] (compRel ["p"] ["p", ".gitignore"])) false
      = false
    ∧ ["p", ".gitignore"] ∉ (pushRun (fun b => b) (fun b => b)
        [(["p", ".gitignore"], [0])] ["p"] ["etc", "app"]
        ⟨["etc", "app"], none, []⟩
        (.dir none (.cons ".gitignore" (.file [1]) .nil))).walk.files.map
          (fileKey ["p"]) :=
  c2_amended_delete_only_unvisited (fun b => b) (fun b => b)
    [(["p", ".gitignore"], [0])] ["p"] ["etc", "app"]
    ⟨["etc", "app"], none, []⟩
    (.dir none (.cons ".gitignore" (.file [1]) .nil))
    ["p", ".gitignore"] (by decide)

/-! ## Termination of the string-level pruning loop (claim C10) -/

/-- A clean path component: non-empty, not a dot element, free of
separators. -/
def CleanComp (c : List Char) : Prop :=
  c ≠ [] ∧ c ≠ ['.'] ∧ c ≠ ['.', '.'] ∧ '/' ∉ c

instance (c : List Char) : Decidable (CleanComp c) := by
  rw [CleanComp]
  infer_instance

theorem dirLoop_iff (root : GoStr) :
    ∀ (fuel : Nat) (d : GoStr),
      dirLoop root fuel d = true ↔
        ∃ k, 1 ≤ k ∧ k ≤ fuel ∧ goDir^[k] d = root := by
  intro fuel
  induction fuel with
  | zero =>
    intro d
    rw [dirLoop]
    constructor
    · intro h
      cases h
    · rintro ⟨k, hk1, hk2, _⟩
      omega
  | succ fuel ih =>
    intro d
    rw [dirLoop]
    by_cases he : goDir d = root
    · simp only [he, if_true, if_pos, true_iff]
      exact ⟨1, by omega, by omega, by rw [Function.iterate_one]; exact he⟩
    · simp only [he, if_false, Bool.false_eq_true]
      rw [ih (goDir d)]
      constructor
      · rintro ⟨k, hk1, hk2, hk3⟩
        refine ⟨k + 1, by omega, by omega, ?_⟩
        rw [Function.iterate_succ_apply]
        exact hk3
      · rintro ⟨k, hk1, hk2, hk3⟩
        have hk1' : k ≠ 1 := by
          intro h1
          rw [h1, Function.iterate_one] at hk3
          exact he hk3
        refine ⟨k - 1, by omega, by omega, ?_⟩
        have hkk : k - 1 + 1 = k := by omega
        rw [← hkk, Function.iterate_succ_apply] at hk3
        exact hk3

theorem dirLoopTerminates_iff (root fn : GoStr) :
    dirLoopTerminates root fn ↔ ∃ n, 1 ≤ n ∧ goDir^[n] fn = root := by
  constructor
  · rintro ⟨fuel, hf⟩
    rcases (dirLoop_iff root fuel fn).mp hf with ⟨k, hk1, _, hk3⟩
    exact ⟨k, hk1, hk3⟩
  · rintro ⟨n, hn1, hn2⟩
    exact ⟨n, (dirLoop_iff root n fn).mpr ⟨n, hn1, le_refl n, hn2⟩⟩

theorem joinComps_append_single (cs : List (List Char)) (c : List Char)
    (h : cs ≠ []) :
    joinComps (cs ++ [c]) = joinComps cs ++ '/' :: c := by
  induction cs with
  | nil => exact absurd rfl h
  | cons a cs ih =>
    cases cs with
    | nil => rfl
    | cons b cs' =>
      have ih' := ih (by simp)
      show a ++ '/' :: joinComps (b :: (cs' ++ [c]))
          = (a ++ '/' :: joinComps (b :: cs')) ++ '/' :: c
      rw [show (b :: (cs' ++ [c]) : List (List Char)) = (b :: cs') ++ [c] from rfl]
      rw [ih', List.append_assoc]
      rfl

theorem dropWhile_append_all {p : Char → Bool} (l r : List Char)
    (h : ∀ a ∈ l, p a = true) : (l ++ r).dropWhile p = r.dropWhile p := by
  induction l with
  | nil => rfl
  | cons a l ih =>
    rw [List.cons_append, List.dropWhile_cons_of_pos (h a (List.mem_cons_self a l))]
    exact ih (fun b hb => h b (List.mem_cons_of_mem a hb))

theorem dropTrailing_append_no_sep (xs c : List Char) (hc1 : c ≠ [])
    (hc2 : '/' ∉ c) :
    dropTrailing (fun a => a ≠ '/') (xs ++ '/' :: c) = xs ++ ['/'] := by
  rw [dropTrailing, List.reverse_append, List.reverse_cons]
  rw [List.append_assoc]
  rw [dropWhile_append_all c.reverse (['/'] ++ xs.reverse)
    (fun a ha => by
      rw [List.mem_reverse] at ha
      simp only [decide_eq_true_eq]
      intro hae
      exact hc2 (hae ▸ ha))]
  rw [show (['/'] ++ xs.reverse : List Char) = '/' :: xs.reverse from rfl]
  rw [List.dropWhile_cons_of_neg (by simp)]
  rw [List.reverse_cons, List.reverse_reverse]

theorem splitOnChar_ne_nil (sep : Char) : ∀ l, splitOnChar sep l ≠ [] := by
  intro l
  cases l with
  | nil => rw [splitOnChar]; simp
  | cons c rest =>
    rw [splitOnChar]
    cases splitOnChar sep rest with
    | nil => simp
    | cons h t =>
      by_cases hc : c = sep <;> simp [hc]

theorem splitOnChar_sep_cons (sep : Char) (l : List Char) :
    splitOnChar sep (sep :: l) = [] :: splitOnChar sep l := by
  rw [splitOnChar]
  cases hs : splitOnChar sep l with
  | nil => exact absurd hs (splitOnChar_ne_nil sep l)
  | cons h t =>
    show (if sep = sep then [] :: h :: t else (sep :: h) :: t) = [] :: h :: t
    rw [if_pos rfl]

theorem splitOnChar_no_sep_append (sep : Char) :
    ∀ (c l : List Char), sep ∉ c →
      splitOnChar sep (c ++ sep :: l) = c :: splitOnChar sep l := by
  intro c
  induction c with
  | nil =>
    intro l _
    exact splitOnChar_sep_cons sep l
  | cons a c ih =>
    intro l hmem
    have ha : a ≠ sep := fun he => hmem (he ▸ List.mem_cons_self a c)
    rw [List.cons_append, splitOnChar]
    rw [ih l (fun hm => hmem (List.mem_cons_of_mem a hm))]
    show (if a = sep then [] :: c :: splitOnChar sep l
        else (a :: c) :: splitOnChar sep l) = (a :: c) :: splitOnChar sep l
    rw [if_neg ha]

theorem splitOnChar_joinComps_slash :
    ∀ (cs : List (List Char)), cs ≠ [] → (∀ x ∈ cs, '/' ∉ x) →
      splitOnChar '/' (joinComps cs ++ ['/']) = cs ++ [[]] := by
  intro cs
  induction cs with
  | nil => intro h; exact absurd rfl h
  | cons c cs ih =>
    intro _ hsep
    cases cs with
    | nil =>
      rw [joinComps]
      rw [show (c ++ ['/'] : List Char) = c ++ '/' :: [] from rfl]
      rw [splitOnChar_no_sep_append '/' c []
        (hsep c (List.mem_cons_self c []))]
      rfl
    | cons b cs' =>
      have hstep : joinComps (c :: b :: cs') ++ ['/']
          = c ++ '/' :: (joinComps (b :: cs') ++ ['/']) := by
        show (c ++ '/' :: joinComps (b :: cs')) ++ ['/']
            = c ++ '/' :: (joinComps (b :: cs') ++ ['/'])
        rw [List.append_assoc]
        rfl
      rw [hstep]
      rw [splitOnChar_no_sep_append '/' c _
        (hsep c (List.mem_cons_self c (b :: cs')))]
      rw [ih (by simp) (fun x hx => hsep x (List.mem_cons_of_mem c hx))]
      rfl

theorem cleanComps_foldl_clean (cs : List (List Char)) (rooted : Bool) :
    ∀ (acc : List (List Char)), (∀ x ∈ cs, CleanComp x) →
      cs.foldl
        (fun acc c =>
          if c = [] ∨ c = ['.'] then acc
          else if c = ['.', '.'] then
            if acc ≠ [] ∧ acc.getLast? ≠ some ['.', '.'] then acc.dropLast
            else if rooted then acc
            else acc ++ [['.', '.']]
          else acc ++ [c])
        acc = acc ++ cs := by
  induction cs with
  | nil => intro acc _; rw [List.foldl_nil, List.append_nil]
  | cons c cs ih =>
    intro acc hclean
    have hc := hclean c (List.mem_cons_self c cs)
    rw [List.foldl_cons]
    rw [if_neg (by
      rintro (h | h)
      · exact hc.1 h
      · exact hc.2.1 h)]
    rw [if_neg hc.2.2.1]
    rw [ih (acc ++ [c]) (fun x hx => hclean x (List.mem_cons_of_mem c hx))]
    rw [List.append_assoc]
    rfl

theorem cleanComps_clean_list (cs : List (List Char))
    (h : ∀ x ∈ cs, CleanComp x) :
    cleanComps true ([] :: (cs ++ [[]])) = cs := by
  rw [cleanComps]
  rw [List.foldl_cons]
  rw [if_pos (Or.inl rfl)]
  rw [List.foldl_append]
  rw [cleanComps_foldl_clean cs true [] h]
  rw [List.foldl_cons, List.foldl_nil]
  rw [if_pos (Or.inl rfl)]
  rw [List.nil_append]

theorem goDir_renderAbs_peel (cs : List (List Char)) (c : List Char)
    (hcs : ∀ x ∈ cs, CleanComp x) (hc1 : c ≠ []) (hc2 : '/' ∉ c) :
    goDir (renderAbs (cs ++ [c])) = renderAbs cs := by
  cases cs with
  | nil =>
    rw [List.nil_append]
    rw [renderAbs, joinComps]
    rw [goDir]
    rw [show ('/' :: c : List Char) = [] ++ '/' :: c from rfl]
    rw [dropTrailing_append_no_sep [] c hc1 hc2]
    rfl
  | cons a cs' =>
    rw [renderAbs]
    rw [joinComps_append_single (a :: cs') c (by simp)]
    rw [goDir]
    rw [show ('/' :: (joinComps (a :: cs') ++ '/' :: c) : List Char)
        = ('/' :: joinComps (a :: cs')) ++ '/' :: c from by
      rw [List.cons_append]]
    rw [dropTrailing_append_no_sep ('/' :: joinComps (a :: cs')) c hc1 hc2]
    rw [goClean]
    rw [show (('/' :: joinComps (a :: cs')) ++ ['/'] : List Char)
        = '/' :: (joinComps (a :: cs') ++ ['/']) from by
      rw [List.cons_append]]
    have hroot : (('/' :: (joinComps (a :: cs') ++ ['/'])).head? = some '/')
        = True := by simp
    rw [splitOnChar_sep_cons]
    rw [splitOnChar_joinComps_slash (a :: cs') (by simp)
      (fun x hx => (hcs x hx).2.2.2)]
    simp only [List.head?_cons, if_pos, if_true]
    rw [show (decide True) = true from rfl]
    rw [cleanComps_clean_list (a :: cs') hcs]

theorem goDir_iter_renderAbs (ds : List (List Char)) :
    ∀ (cs : List (List Char)), (∀ x ∈ cs ++ ds, CleanComp x) →
      goDir^[ds.length] (renderAbs (cs ++ ds)) = renderAbs cs := by
  induction ds using List.reverseRecOn with
  | nil =>
    intro cs _
    rw [List.length_nil, Function.iterate_zero_apply, List.append_nil]
  | append_singleton es c ihes =>
    intro cs hclean
    rw [List.length_append, List.length_cons, List.length_nil]
    rw [Function.iterate_succ_apply]
    have hcin : CleanComp c := hclean c (by simp)
    have hpeel : goDir (renderAbs (cs ++ (es ++ [c]))) = renderAbs (cs ++ es) := by
      rw [← List.append_assoc]
      exact goDir_renderAbs_peel (cs ++ es) c
        (fun x hx => hclean x (by
          rcases List.mem_append.mp hx with h | h
          · exact List.mem_append.mpr (Or.inl h)
          · exact List.mem_append.mpr (Or.inr (List.mem_append.mpr (Or.inl h)))))
        hcin.1 hcin.2.2.2
    rw [hpeel]
    exact ihes cs (fun x hx => hclean x (by
      rcases List.mem_append.mp hx with h | h
      · exact List.mem_append.mpr (Or.inl h)
      · exact List.mem_append.mpr (Or.inr (List.mem_append.mpr (Or.inl h)))))

theorem goDir_slash : goDir ['/'] = ['/'] := by decide

theorem goDir_iter_fix_slash (fn : GoStr) (k : Nat)
    (h : goDir^[k] fn = ['/']) : ∀ m, goDir^[k + m] fn = ['/'] := by
  intro m
  induction m with
  | zero => exact h
  | succ m ihm =>
    rw [show k + (m + 1) = (k + m) + 1 from by omega]
    rw [Function.iterate_succ_apply']
    rw [ihm, goDir_slash]

/-- **C10.** The ancestor-pruning loop (replace `d` by `filepath.Dir(d)`
until `d` equals the configured root string) terminates if and only if
the root string equals some positive iterate of `filepath.Dir` on the
deleted file's path; when the root is a cleaned absolute path and a
proper ancestor of the file's path, the loop terminates in finitely many
steps; and a root string written with a trailing slash — here `/a/`
against the file `/a/b/c`, whose `Dir`-chain is `/a/b`, `/a`, `/`, `/`,
… — never occurs in the chain, so the loop never terminates. -/
theorem c10_dir_chain_termination :
    (∀ root fn : GoStr,
      dirLoopTerminates root fn ↔ ∃ n, 1 ≤ n ∧ goDir^[n] fn = root)
    ∧ (∀ (cs ds : List (List Char)), (∀ x ∈ cs ++ ds, CleanComp x) →
        ds ≠ [] → dirLoopTerminates (renderAbs cs) (renderAbs (cs ++ ds)))
    ∧ ¬ dirLoopTerminates "/a/".data "/a/b/c".data := by
  refine ⟨dirLoopTerminates_iff, ?_, ?_⟩
  · intro cs ds hclean hds
    rw [dirLoopTerminates_iff]
    refine ⟨ds.length, ?_, goDir_iter_renderAbs ds cs hclean⟩
    have : ds.length ≠ 0 := fun h0 => hds (List.eq_nil_of_length_eq_zero h0)
    omega
  · rw [dirLoopTerminates_iff]
    rintro ⟨n, hn1, hn2⟩
    have h3 : goDir^[3] "/a/b/c".data = ['/'] := by decide
    rcases Nat.lt_or_ge n 3 with hlt | hge
    · interval_cases n
      · rw [show (1 : Nat) = 0 + 1 from rfl, Function.iterate_succ_apply,
          Function.iterate_zero_apply] at hn2
        revert hn2
        decide
      · rw [show (2 : Nat) = 1 + 1 from rfl, Function.iterate_succ_apply',
          Function.iterate_one] at hn2
        revert hn2
        decide
    · have := goDir_iter_fix_slash "/a/b/c".data 3 h3 (n - 3)
      rw [show 3 + (n - 3) = n from by omega] at this
      rw [this] at hn2
      revert hn2
      decide

/-- Witness for C10: the clean root `/a` is reached from `/a/b` in one
`Dir` step, so the loop terminates there. -/
theorem c10_dir_chain_termination_witness :
    dirLoopTerminates (renderAbs [['a']]) (renderAbs ([['a']] ++ [['b']])) :=
  c10_dir_chain_termination.2.1 [['a']] [['b']] (by decide) (by decide)


/-! ## Push idempotence (claim C3)

Key-level facts about `compClean`, lookups under store operations, the
keys a sub-transaction can write, and the behaviour of a transaction
list whose guards all succeed. -/

def opKey : StoreOp → CPath
  | .put k _ => k
  | .del k => k

/-- All keys a sub-transaction can write (either branch). -/
def subWrites (t : SubTxn) : List CPath :=
  (t.thenOps ++ t.elseOps).map opKey

theorem getLast_append_one {α : Type} (l : List α) (a : α) :
    (l ++ [a]).getLast? = some a := by
  simp

theorem append_one_inj {α : Type} (l1 l2 : List α) (a : α)
    (h : l1 ++ [a] = l2 ++ [a]) : l1 = l2 := by
  have h' := congrArg List.dropLast h
  rwa [List.dropLast_concat, List.dropLast_concat] at h'

theorem compClean_foldl_clean (cs : CPath) :
    ∀ (acc : CPath), (∀ x ∈ cs, x ≠ "" ∧ x ≠ "." ∧ x ≠ "..") →
      cs.foldl
        (fun acc c =>
          if c = "" ∨ c = "." then acc
          else if c = ".." then acc.dropLast
          else acc ++ [c]) acc = acc ++ cs := by
  induction cs with
  | nil => intro acc _; rw [List.foldl_nil, List.append_nil]
  | cons c cs ih =>
    intro acc hclean
    have hc := hclean c (List.mem_cons_self c cs)
    rw [List.foldl_cons]
    rw [if_neg (by rintro (h | h); exacts [hc.1 h, hc.2.1 h])]
    rw [if_neg hc.2.2]
    rw [ih (acc ++ [c]) (fun x hx => hclean x (List.mem_cons_of_mem c hx))]
    rw [List.append_assoc]
    rfl

theorem compClean_clean (cs : CPath)
    (h : ∀ x ∈ cs, x ≠ "" ∧ x ≠ "." ∧ x ≠ "..") : compClean cs = cs := by
  rw [compClean, compClean_foldl_clean cs [] h, List.nil_append]

theorem compClean_foldl_mem (cs : CPath) :
    ∀ (acc : CPath), (∀ x ∈ acc, x ≠ "" ∧ x ≠ "." ∧ x ≠ "..") →
      ∀ x ∈ cs.foldl
        (fun acc c =>
          if c = "" ∨ c = "." then acc
          else if c = ".." then acc.dropLast
          else acc ++ [c]) acc, x ≠ "" ∧ x ≠ "." ∧ x ≠ ".." := by
  induction cs with
  | nil => intro acc hacc; rw [List.foldl_nil]; exact hacc
  | cons c cs ih =>
    intro acc hacc
    rw [List.foldl_cons]
    apply ih
    by_cases hc1 : c = "" ∨ c = "."
    · rw [if_pos hc1]; exact hacc
    · rw [if_neg hc1]
      by_cases hc2 : c = ".."
      · rw [if_pos hc2]
        intro x hx
        exact hacc x ((List.dropLast_sublist acc).subset hx)
      · rw [if_neg hc2]
        intro x hx
        rcases List.mem_append.mp hx with h | h
        · exact hacc x h
        · rw [List.mem_singleton] at h
          subst h
          exact ⟨fun he => hc1 (Or.inl he), fun he => hc1 (Or.inr he), hc2⟩

theorem compClean_mem (cs : CPath) :
    ∀ x ∈ compClean cs, x ≠ "" ∧ x ≠ "." ∧ x ≠ ".." := by
  rw [compClean]
  exact compClean_foldl_mem cs [] (fun x hx => absurd hx (List.not_mem_nil x))

theorem compClean_append_ne (cs : CPath) (c : String)
    (h1 : ¬ (c = "" ∨ c = ".")) (h2 : c ≠ "..") :
    compClean (cs ++ [c]) = compClean cs ++ [c] := by
  rw [compClean, compClean, List.foldl_append, List.foldl_cons, List.foldl_nil,
    if_neg h1, if_neg h2]

theorem compJoin_hash (k : CPath) :
    compJoin k [".hash"] = compClean k ++ [".hash"] := by
  rw [compJoin, compClean_append_ne k ".hash" (by decide) (by decide)]

theorem compJoin_hashKey (a b : CPath) :
    compJoin (compJoin a b) [".hash"] = compJoin a b ++ [".hash"] := by
  rw [compJoin_hash,
    show compClean (compJoin a b) = compJoin a b from
      compClean_clean _ (fun x hx => compClean_mem (a ++ b) x hx)]

theorem fileKey_hash (pfx : CPath) (fr : FileRec) :
    compJoin (fileKey pfx fr) [".hash"] = fileKey pfx fr ++ [".hash"] := by
  rw [fileKey]
  exact compJoin_hashKey pfx fr.rel

theorem lookupKey_cons (e : CPath × Bytes) (s : Store) (q : CPath) :
    lookupKey (e :: s) q = if e.1 = q then some e.2 else lookupKey s q := by
  by_cases h : e.1 = q
  · rw [if_pos h, lookupKey, List.find?_cons_of_pos _ (by simpa using h)]
    rfl
  · rw [if_neg h, lookupKey, List.find?_cons_of_neg _ (by simpa using h)]
    rfl

theorem lookupKey_append (s1 s2 : Store) (q : CPath) :
    lookupKey (s1 ++ s2) q =
      match lookupKey s1 q with
      | some v => some v
      | none => lookupKey s2 q := by
  induction s1 with
  | nil => rfl
  | cons e s1 ih =>
    rw [List.cons_append, lookupKey_cons, lookupKey_cons]
    by_cases h : e.1 = q <;> simp [h, ih]

theorem lookupKey_filter_ne (s : Store) (k q : CPath) (h : q ≠ k) :
    lookupKey (s.filter (fun e => e.1 ≠ k)) q = lookupKey s q := by
  induction s with
  | nil => rfl
  | cons e s ih =>
    rw [List.filter_cons]
    by_cases hek : e.1 = k
    · rw [if_neg (by simp [hek])]
      rw [ih, lookupKey_cons, if_neg (fun he => h (by rw [← he, hek]))]
    · rw [if_pos (by simp [hek]), lookupKey_cons, lookupKey_cons]
      by_cases heq : e.1 = q
      · rw [if_pos heq, if_pos heq]
      · rw [if_neg heq, if_neg heq, ih]

theorem lookupKey_filter_self (s : Store) (k : CPath) :
    lookupKey (s.filter (fun e => e.1 ≠ k)) k = none := by
  induction s with
  | nil => rfl
  | cons e s ih =>
    rw [List.filter_cons]
    by_cases hek : e.1 = k
    · rw [if_neg (by simp [hek])]
      exact ih
    · rw [if_pos (by simp [hek]), lookupKey_cons, if_neg hek]
      exact ih

theorem lookupKey_filter_none (s : Store) (p : CPath × Bytes → Bool) (q : CPath)
    (h : lookupKey s q = none) : lookupKey (s.filter p) q = none := by
  induction s with
  | nil => rfl
  | cons e s ih =>
    rw [lookupKey_cons] at h
    by_cases heq : e.1 = q
    · rw [if_pos heq] at h
      simp at h
    · rw [if_neg heq] at h
      rw [List.filter_cons]
      by_cases hp : p e = true
      · rw [if_pos hp, lookupKey_cons, if_neg heq]
        exact ih h
      · rw [if_neg hp]
        exact ih h

theorem lookupKey_ne_none_of_mem (s : Store) (q : CPath) :
    q ∈ s.map (·.1) → lookupKey s q ≠ none := by
  induction s with
  | nil => intro h; exact absurd h (List.not_mem_nil q)
  | cons e s ih =>
    intro h
    rw [List.map_cons] at h
    rw [lookupKey_cons]
    by_cases he : e.1 = q
    · rw [if_pos he]; simp
    · rw [if_neg he]
      rcases List.mem_cons.mp h with h' | h'
      · exact absurd h'.symm he
      · exact ih h'

theorem lookupKey_put_self (s : Store) (k : CPath) (v : Bytes) :
    lookupKey (applyOp s (.put k v)) k = some v := by
  show lookupKey (s.filter (fun e => e.1 ≠ k) ++ [(k, v)]) k = some v
  rw [lookupKey_append, lookupKey_filter_self]
  simp only []
  rw [lookupKey_cons, if_pos rfl]

theorem lookupKey_del_self (s : Store) (k : CPath) :
    lookupKey (applyOp s (.del k)) k = none := by
  show lookupKey (s.filter (fun e => e.1 ≠ k)) k = none
  exact lookupKey_filter_self s k

theorem lookupKey_del_none (s : Store) (k q : CPath)
    (h : lookupKey s q = none) : lookupKey (applyOp s (.del k)) q = none := by
  show lookupKey (s.filter (fun e => e.1 ≠ k)) q = none
  exact lookupKey_filter_none s _ q h

theorem lookupKey_applyOp_ne (s : Store) (op : StoreOp) (q : CPath)
    (h : q ≠ opKey op) : lookupKey (applyOp s op) q = lookupKey s q := by
  cases op with
  | put k v =>
    show lookupKey (s.filter (fun e => e.1 ≠ k) ++ [(k, v)]) q = lookupKey s q
    rw [lookupKey_append, lookupKey_filter_ne s k q h]
    cases hq : lookupKey s q with
    | some v' => rfl
    | none =>
      simp only []
      rw [lookupKey_cons, if_neg (fun he => h he.symm)]
      rfl
  | del k =>
    show lookupKey (s.filter (fun e => e.1 ≠ k)) q = lookupKey s q
    exact lookupKey_filter_ne s k q h

theorem lookupKey_foldl_ne (ops : List StoreOp) :
    ∀ (s : Store) (q : CPath), (∀ op ∈ ops, q ≠ opKey op) →
      lookupKey (ops.foldl applyOp s) q = lookupKey s q := by
  induction ops with
  | nil => intro s q _; rfl
  | cons op ops ih =>
    intro s q h
    rw [List.foldl_cons,
      ih (applyOp s op) q (fun op' h' => h op' (List.mem_cons_of_mem op h')),
      lookupKey_applyOp_ne s op q (h op (List.mem_cons_self op ops))]

theorem lookupKey_applySub_ne (s : Store) (t : SubTxn) (q : CPath)
    (h : q ∉ subWrites t) : lookupKey (applySub s t).1 q = lookupKey s q := by
  have hthen : ∀ op ∈ t.thenOps, q ≠ opKey op := fun op hop he =>
    h (List.mem_map.mpr ⟨op, List.mem_append.mpr (Or.inl hop), he.symm⟩)
  have helse : ∀ op ∈ t.elseOps, q ≠ opKey op := fun op hop he =>
    h (List.mem_map.mpr ⟨op, List.mem_append.mpr (Or.inr hop), he.symm⟩)
  rw [applySub]
  by_cases hg : t.guard.all (evalGuard s) = true
  · rw [if_pos hg]
    exact lookupKey_foldl_ne t.thenOps s q hthen
  · rw [if_neg hg]
    exact lookupKey_foldl_ne t.elseOps s q helse

theorem applyTxn_cons (s : Store) (t : SubTxn) (ts : List SubTxn) :
    applyTxn s (t :: ts) =
      ((applyTxn (applySub s t).1 ts).1,
       (applySub s t).2 :: (applyTxn (applySub s t).1 ts).2) := rfl

theorem applyTxn_append (s : Store) (l1 l2 : List SubTxn) :
    applyTxn s (l1 ++ l2) =
      ((applyTxn (applyTxn s l1).1 l2).1,
       (applyTxn s l1).2 ++ (applyTxn (applyTxn s l1).1 l2).2) := by
  induction l1 generalizing s with
  | nil => rfl
  | cons t l1 ih =>
    rw [List.cons_append]
    simp only [applyTxn_cons]
    rw [ih (applySub s t).1]
    simp

theorem lookupKey_applyTxn_ne (ts : List SubTxn) :
    ∀ (s : Store) (q : CPath), (∀ t ∈ ts, q ∉ subWrites t) →
      lookupKey (applyTxn s ts).1 q = lookupKey s q := by
  induction ts with
  | nil => intro s q _; rfl
  | cons t ts ih =>
    intro s q h
    rw [applyTxn_cons]
    show lookupKey (applyTxn (applySub s t).1 ts).1 q = lookupKey s q
    rw [ih (applySub s t).1 q (fun t' h' => h t' (List.mem_cons_of_mem t h'))]
    exact lookupKey_applySub_ne s t q (h t (List.mem_cons_self t ts))

theorem keys_foldl_put (ops : List StoreOp) :
    ∀ (s : Store) (q : CPath),
      q ∈ (ops.foldl applyOp s).map (·.1) →
      q ∈ s.map (·.1) ∨ ∃ op ∈ ops, ∃ v, op = StoreOp.put q v := by
  induction ops with
  | nil => intro s q h; exact Or.inl h
  | cons op ops ih =>
    intro s q h
    rw [List.foldl_cons] at h
    rcases ih (applyOp s op) q h with h' | ⟨op', hop', v, hv⟩
    · cases op with
      | put k v =>
        rcases List.mem_map.mp h' with ⟨e, he, rfl⟩
        have he' : e ∈ s.filter (fun e => e.1 ≠ k) ++ [(k, v)] := he
        rcases List.mem_append.mp he' with hef | heh
        · exact Or.inl (List.mem_map.mpr ⟨e, List.mem_of_mem_filter hef, rfl⟩)
        · rw [List.mem_singleton] at heh
          subst heh
          exact Or.inr ⟨StoreOp.put k v, List.mem_cons_self _ _, v, rfl⟩
      | del k =>
        rcases List.mem_map.mp h' with ⟨e, he, rfl⟩
        have he' : e ∈ s.filter (fun e => e.1 ≠ k) := he
        exact Or.inl (List.mem_map.mpr ⟨e, List.mem_of_mem_filter he', rfl⟩)
    · exact Or.inr ⟨op', List.mem_cons_of_mem op hop', v, hv⟩

theorem keys_applySub (s : Store) (t : SubTxn) (q : CPath)
    (h : q ∈ ((applySub s t).1.map (·.1))) :
    q ∈ s.map (·.1) ∨ ∃ op ∈ t.thenOps ++ t.elseOps, ∃ v, op = StoreOp.put q v := by
  rw [applySub] at h
  by_cases hg : t.guard.all (evalGuard s) = true
  · rw [if_pos hg] at h
    rcases keys_foldl_put t.thenOps s q h with h' | ⟨op, hop, v, hv⟩
    · exact Or.inl h'
    · exact Or.inr ⟨op, List.mem_append.mpr (Or.inl hop), v, hv⟩
  · rw [if_neg hg] at h
    rcases keys_foldl_put t.elseOps s q h with h' | ⟨op, hop, v, hv⟩
    · exact Or.inl h'
    · exact Or.inr ⟨op, List.mem_append.mpr (Or.inr hop), v, hv⟩

theorem keys_applyTxn (ts : List SubTxn) :
    ∀ (s : Store) (q : CPath),
      q ∈ ((applyTxn s ts).1.map (·.1)) →
      q ∈ s.map (·.1) ∨
        ∃ t ∈ ts, ∃ op ∈ t.thenOps ++ t.elseOps, ∃ v, op = StoreOp.put q v := by
  induction ts with
  | nil => intro s q h; exact Or.inl h
  | cons t ts ih =>
    intro s q h
    rw [applyTxn_cons] at h
    have h' : q ∈ ((applyTxn (applySub s t).1 ts).1.map (·.1)) := h
    rcases ih (applySub s t).1 q h' with h'' | ⟨t', ht', hh⟩
    · rcases keys_applySub s t q h'' with h3 | ⟨op, hop, v, hv⟩
      · exact Or.inl h3
      · exact Or.inr ⟨t, List.mem_cons_self t ts, op, hop, v, hv⟩
    · exact Or.inr ⟨t', List.mem_cons_of_mem t ht', hh⟩

theorem applySub_delTxn (s : Store) (d : CPath) :
    applySub s (delTxn d) =
      (applyOp (applyOp s (.del d)) (.del (compJoin d [".hash"])), true) := rfl

theorem lookupKey_delTxns_none (ds : List CPath) :
    ∀ (s : Store) (q : CPath), lookupKey s q = none →
      lookupKey (applyTxn s (ds.map delTxn)).1 q = none := by
  induction ds with
  | nil => intro s q h; exact h
  | cons d ds ih =>
    intro s q h
    rw [List.map_cons, applyTxn_cons]
    show lookupKey (applyTxn (applySub s (delTxn d)).1 (ds.map delTxn)).1 q = none
    apply ih
    rw [applySub_delTxn]
    show lookupKey (applyOp (applyOp s (.del d)) (.del (compJoin d [".hash"]))) q = none
    exact lookupKey_del_none _ _ _ (lookupKey_del_none _ _ _ h)

theorem mem_delTxns_none (ds : List CPath) :
    ∀ (s : Store) (k : CPath), k ∈ ds → k.getLast? ≠ some ".hash" →
      lookupKey (applyTxn s (ds.map delTxn)).1 k = none := by
  induction ds with
  | nil => intro s k hk _; exact absurd hk (List.not_mem_nil k)
  | cons d ds ih =>
    intro s k hk hlast
    rw [List.map_cons, applyTxn_cons]
    show lookupKey (applyTxn (applySub s (delTxn d)).1 (ds.map delTxn)).1 k = none
    rcases List.mem_cons.mp hk with rfl | hk'
    · apply lookupKey_delTxns_none
      rw [applySub_delTxn]
      show lookupKey (applyOp (applyOp s (.del k)) (.del (compJoin k [".hash"]))) k = none
      rw [lookupKey_applyOp_ne _ _ _ (by
        show k ≠ compJoin k [".hash"]
        rw [compJoin_hash]
        intro he
        exact hlast (by rw [he]; exact getLast_append_one _ _))]
      exact lookupKey_del_self s k
    · exact ih (applySub s (delTxn d)).1 k hk' hlast


/-- After running the conditional sub-transactions of a walk with
pairwise-distinct content keys none of which ends in `.hash`, every
visited file's content key is present and its companion holds the
digest — whether its guard succeeded (the store already agreed) or
failed (the else-branch wrote both). -/
theorem condPuts_establish (dg cp : Bytes → Bytes) (pfx : CPath) :
    ∀ (F : List FileRec) (s : Store),
      (F.map (fileKey pfx)).Nodup →
      (∀ fr ∈ F, (fileKey pfx fr).getLast? ≠ some ".hash") →
      ∀ fr ∈ F,
        lookupKey (applyTxn s (F.map (fileTxn dg cp pfx))).1 (fileKey pfx fr) ≠ none ∧
        lookupKey (applyTxn s (F.map (fileTxn dg cp pfx))).1
            (compJoin (fileKey pfx fr) [".hash"]) = some (dg fr.raw) := by
  intro F
  induction F with
  | nil =>
    intro s _ _ fr hfr
    exact absurd hfr (List.not_mem_nil fr)
  | cons fr0 F ih =>
    intro s hnd hnh fr hfr
    rw [List.map_cons, applyTxn_cons]
    have hnm0 := (List.nodup_cons.mp hnd).1
    have hnd' := (List.nodup_cons.mp hnd).2
    rcases List.mem_cons.mp hfr with heq | hfr'
    · subst heq
      have hafter :
          lookupKey (applySub s (fileTxn dg cp pfx fr)).1 (fileKey pfx fr) ≠ none ∧
          lookupKey (applySub s (fileTxn dg cp pfx fr)).1
              (compJoin (fileKey pfx fr) [".hash"]) = some (dg fr.raw) := by
        rw [applySub]
        by_cases hg : (fileTxn dg cp pfx fr).guard.all (evalGuard s) = true
        · rw [if_pos hg]
          simp only [fileTxn, condPutTxn, List.all_cons, List.all_nil, Bool.and_true,
            Bool.and_eq_true, evalGuard, decide_eq_true_eq] at hg
          obtain ⟨h1, h2, h3⟩ := hg
          constructor
          · show lookupKey s (fileKey pfx fr) ≠ none
            intro hnone
            rw [hnone] at h1
            simp at h1
          · show lookupKey s (compJoin (fileKey pfx fr) [".hash"]) = some (dg fr.raw)
            exact h3
        · rw [if_neg hg]
          have hne : fileKey pfx fr ≠ compJoin (fileKey pfx fr) [".hash"] := by
            rw [fileKey_hash]
            intro he
            exact hnh fr (List.mem_cons_self fr F)
              (by rw [he]; exact getLast_append_one _ _)
          show lookupKey
              (applyOp (applyOp s (.put (fileKey pfx fr) (cp fr.raw)))
                (.put (compJoin (fileKey pfx fr) [".hash"]) (dg fr.raw)))
              (fileKey pfx fr) ≠ none ∧
            lookupKey
              (applyOp (applyOp s (.put (fileKey pfx fr) (cp fr.raw)))
                (.put (compJoin (fileKey pfx fr) [".hash"]) (dg fr.raw)))
              (compJoin (fileKey pfx fr) [".hash"]) = some (dg fr.raw)
          constructor
          · rw [lookupKey_applyOp_ne _ _ _ hne, lookupKey_put_self]
            simp
          · exact lookupKey_put_self _ _ _
      have hpres2 : ∀ t' ∈ F.map (fileTxn dg cp pfx),
          fileKey pfx fr ∉ subWrites t' ∧
          compJoin (fileKey pfx fr) [".hash"] ∉ subWrites t' := by
        intro t' ht'
        rcases List.mem_map.mp ht' with ⟨fr', hfr', rfl⟩
        have hsub : subWrites (fileTxn dg cp pfx fr')
            = [fileKey pfx fr', compJoin (fileKey pfx fr') [".hash"]] := by
          simp [subWrites, fileTxn, condPutTxn, opKey]
        rw [hsub]
        have hke : fileKey pfx fr ≠ fileKey pfx fr' := by
          intro he
          exact hnm0 (by rw [he]; exact List.mem_map.mpr ⟨fr', hfr', rfl⟩)
        constructor
        · intro hm
          rcases List.mem_cons.mp hm with h | hm2
          · exact hke h
          · rcases List.mem_cons.mp hm2 with h | hm3
            · exact hnh fr (List.mem_cons_self fr F)
                (by rw [h, fileKey_hash]; exact getLast_append_one _ _)
            · exact absurd hm3 (List.not_mem_nil _)
        · intro hm
          rcases List.mem_cons.mp hm with h | hm2
          · exact hnh fr' (List.mem_cons_of_mem fr hfr')
              (by rw [← h, fileKey_hash]; exact getLast_append_one _ _)
          · rcases List.mem_cons.mp hm2 with h | hm3
            · have h' : fileKey pfx fr = fileKey pfx fr' := by
                apply append_one_inj _ _ ".hash"
                rw [← fileKey_hash, ← fileKey_hash]
                exact h
              exact hke h'
            · exact absurd hm3 (List.not_mem_nil _)
      constructor
      · show lookupKey (applyTxn (applySub s (fileTxn dg cp pfx fr)).1
            (F.map (fileTxn dg cp pfx))).1 (fileKey pfx fr) ≠ none
        rw [lookupKey_applyTxn_ne (F.map (fileTxn dg cp pfx))
          (applySub s (fileTxn dg cp pfx fr)).1 (fileKey pfx fr)
          (fun t' ht' => (hpres2 t' ht').1)]
        exact hafter.1
      · show lookupKey (applyTxn (applySub s (fileTxn dg cp pfx fr)).1
            (F.map (fileTxn dg cp pfx))).1 (compJoin (fileKey pfx fr) [".hash"])
            = some (dg fr.raw)
        rw [lookupKey_applyTxn_ne (F.map (fileTxn dg cp pfx))
          (applySub s (fileTxn dg cp pfx fr)).1 (compJoin (fileKey pfx fr) [".hash"])
          (fun t' ht' => (hpres2 t' ht').2)]
        exact hafter.2
    · exact ih (applySub s (fileTxn dg cp pfx fr0)).1 hnd'
        (fun fr'' h'' => hnh fr'' (List.mem_cons_of_mem fr0 h'')) fr hfr'

/-- On a store that already holds every visited file's content key and
correct companion digest, every conditional guard succeeds, the empty
then-branch leaves the store untouched, and every sub-transaction
reports success. -/
theorem condPuts_succeed (dg cp : Bytes → Bytes) (pfx : CPath) :
    ∀ (F : List FileRec) (s : Store),
      (∀ fr ∈ F, lookupKey s (fileKey pfx fr) ≠ none ∧
        lookupKey s (compJoin (fileKey pfx fr) [".hash"]) = some (dg fr.raw)) →
      applyTxn s (F.map (fileTxn dg cp pfx)) = (s, List.replicate F.length true) := by
  intro F
  induction F with
  | nil => intro s _; rfl
  | cons fr F ih =>
    intro s h
    have hfr := h fr (List.mem_cons_self fr F)
    have hguard : (fileTxn dg cp pfx fr).guard.all (evalGuard s) = true := by
      simp only [fileTxn, condPutTxn, List.all_cons, List.all_nil, Bool.and_true,
        Bool.and_eq_true, evalGuard, decide_eq_true_eq]
      exact ⟨Option.isSome_iff_ne_none.mpr hfr.1,
        by rw [hfr.2]; rfl, hfr.2⟩
    have happly : applySub s (fileTxn dg cp pfx fr) = (s, true) := by
      rw [applySub, if_pos hguard]
      rfl
    rw [List.map_cons, applyTxn_cons, happly]
    show ((applyTxn s (F.map (fileTxn dg cp pfx))).1,
        true :: (applyTxn s (F.map (fileTxn dg cp pfx))).2)
      = (s, List.replicate (fr :: F).length true)
    rw [ih s (fun fr' h' => h fr' (List.mem_cons_of_mem fr h'))]
    show (s, true :: List.replicate F.length true)
      = (s, List.replicate (fr :: F).length true)
    rw [List.length_cons, List.replicate_succ]

theorem reportLines_files (g : FileRec → CPath) (F : List FileRec) :
    reportLines ((F.map (fun fr => (g fr, false))).zip
      (List.replicate F.length true)) = [] := by
  induction F with
  | nil => rfl
  | cons fr F ih =>
    rw [List.map_cons, List.length_cons, List.replicate_succ, List.zip_cons_cons,
      reportLines]
    simp [ih]

/-- **C3 (counterexample).** Push is not idempotent in general.  With a
content file literally named `.hash` under directory `x`, its content
key is `p/x/.hash`; the stale store key `p/x` is then deleted together
with its companion `p/x/.hash` — which is exactly the content key the
same transaction just wrote — so the second run's guard fails again and
it prints an `updated` line. -/
theorem c3_counterexample :
    pushOut (pushRun id id
      (pushRun id id [(["p", "x"], [9])] ["p"] ["r"] ⟨["r"], none, []⟩
        (FTree.dir none (FForest.cons "x"
          (FTree.dir none (FForest.cons ".hash" (FTree.file [1]) FForest.nil))
          FForest.nil))).store
      ["p"] ["r"] ⟨["r"], none, []⟩
      (FTree.dir none (FForest.cons "x"
        (FTree.dir none (FForest.cons ".hash" (FTree.file [1]) FForest.nil))
        FForest.nil))) ≠ [] := by
  decide


/-- **C3 (amended).** Running push twice in succession over the same
prefix and root — with no change to the local tree and no other writer
touching the store — prints zero `updated` and zero `removed` lines on
the second run, PROVIDED that every initial store key is clean (no
empty, `.` or `..` segments), that no two visited files share a content
key, and that no visited file's content key ends in `.hash` (no content
file is itself named `.hash`): every conditional sub-transaction's
guard then succeeds and no deletion sub-transaction is appended. -/
theorem c3_amended_idempotent (dg cp : Bytes → Bytes) (store0 : Store)
    (pfx root : CPath) (tim0 : TreeIgnoreMatcher) (t : FTree)
    (hclean : ∀ e ∈ store0, compClean e.1 = e.1)
    (hnd : ((pushRun dg cp store0 pfx root tim0 t).walk.files.map (fileKey pfx)).Nodup)
    (hnh : ∀ fr ∈ (pushRun dg cp store0 pfx root tim0 t).walk.files,
      (fileKey pfx fr).getLast? ≠ some ".hash") :
    pushOut (pushRun dg cp (pushRun dg cp store0 pfx root tim0 t).store
      pfx root tim0 t) = [] := by
  have hw : (pushRun dg cp store0 pfx root tim0 t).walk.files
      = (pushSpec root tim0 t).2 := pushWalk_files dg cp store0 pfx root tim0 t
  rw [hw] at hnd hnh
  -- facts about the first run's deletion candidates
  have hdk1 : ∀ d ∈ pushDelKeys dg cp store0 pfx root tim0 t,
      d ∈ store0.map (·.1) ∧ d.getLast? ≠ some ".hash" ∧
        d ∉ (pushSpec root tim0 t).2.map (fileKey pfx) := by
    intro d hd
    rw [pushDelKeys, pushWalk_tree] at hd
    have h1 := List.mem_filter.mp hd
    have h2 := List.mem_filter.mp h1.1
    have h3 := List.mem_filter.mp h2.1
    exact ⟨h3.1, by simpa using h3.2, by simpa using h2.2⟩
  -- the first run's store, split into the walk phase and the deletions
  have hsplit : (pushRun dg cp store0 pfx root tim0 t).store
      = (applyTxn (applyTxn store0
          ((pushSpec root tim0 t).2.map (fileTxn dg cp pfx))).1
        ((pushDelKeys dg cp store0 pfx root tim0 t).map delTxn)).1 := by
    show (applyTxn store0 (pushOps dg cp store0 pfx root tim0 t)).1 = _
    rw [pushOps, pushWalk_ops, applyTxn_append]
  -- after the first run every visited file's keys are correctly stored
  have hfile1 : ∀ fr ∈ (pushSpec root tim0 t).2,
      lookupKey (pushRun dg cp store0 pfx root tim0 t).store (fileKey pfx fr) ≠ none ∧
      lookupKey (pushRun dg cp store0 pfx root tim0 t).store
          (compJoin (fileKey pfx fr) [".hash"]) = some (dg fr.raw) := by
    intro fr hfr
    have hC := condPuts_establish dg cp pfx (pushSpec root tim0 t).2 store0 hnd hnh fr hfr
    have hpres : ∀ t' ∈ (pushDelKeys dg cp store0 pfx root tim0 t).map delTxn,
        fileKey pfx fr ∉ subWrites t' ∧
        compJoin (fileKey pfx fr) [".hash"] ∉ subWrites t' := by
      intro t' ht'
      rcases List.mem_map.mp ht' with ⟨d, hd, rfl⟩
      rcases hdk1 d hd with ⟨hd0, hdlast, hdK⟩
      have hdc : compClean d = d := by
        rcases List.mem_map.mp hd0 with ⟨e, he, rfl⟩
        exact hclean e he
      have hsub : subWrites (delTxn d) = [d, compClean d ++ [".hash"]] := by
        simp [subWrites, delTxn, opKey, compJoin_hash]
      rw [hsub, hdc]
      constructor
      · intro hm
        rcases List.mem_cons.mp hm with h | hm2
        · exact hdK (by rw [← h]; exact List.mem_map.mpr ⟨fr, hfr, rfl⟩)
        · rcases List.mem_cons.mp hm2 with h | hm3
          · exact hnh fr hfr (by rw [h]; exact getLast_append_one _ _)
          · exact absurd hm3 (List.not_mem_nil _)
      · intro hm
        rcases List.mem_cons.mp hm with h | hm2
        · exact hdlast (by rw [← h, fileKey_hash]; exact getLast_append_one _ _)
        · rcases List.mem_cons.mp hm2 with h | hm3
          · have h' : fileKey pfx fr = d := by
              apply append_one_inj _ _ ".hash"
              rw [← fileKey_hash]
              exact h
            exact hdK (by rw [← h']; exact List.mem_map.mpr ⟨fr, hfr, rfl⟩)
          · exact absurd hm3 (List.not_mem_nil _)
    constructor
    · rw [hsplit, lookupKey_applyTxn_ne
        ((pushDelKeys dg cp store0 pfx root tim0 t).map delTxn) _ _
        (fun t' ht' => (hpres t' ht').1)]
      exact hC.1
    · rw [hsplit, lookupKey_applyTxn_ne
        ((pushDelKeys dg cp store0 pfx root tim0 t).map delTxn) _ _
        (fun t' ht' => (hpres t' ht').2)]
      exact hC.2
  -- the second run appends no deletion sub-transaction
  have hdel2 : pushDelKeys dg cp (pushRun dg cp store0 pfx root tim0 t).store
      pfx root tim0 t = [] := by
    rw [pushDelKeys, pushWalk_tree]
    rw [List.filter_eq_nil_iff]
    intro k hk
    have hk1 := List.mem_filter.mp hk
    have hk2 := List.mem_filter.mp hk1.1
    have hkK : k ∉ (pushSpec root tim0 t).2.map (fileKey pfx) := by
      simpa using hk1.2
    have hklast : k.getLast? ≠ some ".hash" := by simpa using hk2.2
    have hkmem : k ∈ (pushRun dg cp store0 pfx root tim0 t).store.map (·.1) := hk2.1
    by_cases hM : ((pushSpec root tim0 t).1.Match
        (compJoin root (compRel pfx k)) false) = true
    · simp [pushWalk_tim, hM]
    · exfalso
      have hkmem' : k ∈ ((applyTxn store0
          (pushOps dg cp store0 pfx root tim0 t)).1.map (·.1)) := hkmem
      rcases keys_applyTxn (pushOps dg cp store0 pfx root tim0 t) store0 k hkmem'
        with hmem0 | ⟨t', ht', op, hop, v, hv⟩
      · -- a surviving store key: not a file key, so it was a deletion
        -- candidate; not ignored, so it was deleted — contradiction
        have hkdel1 : k ∈ pushDelKeys dg cp store0 pfx root tim0 t := by
          rw [pushDelKeys, pushWalk_tree]
          refine List.mem_filter.mpr ⟨List.mem_filter.mpr
            ⟨List.mem_filter.mpr ⟨hmem0, ?_⟩, ?_⟩, ?_⟩
          · simpa using hklast
          · simpa using hkK
          · simp only [pushWalk_tim]
            simpa using hM
        have hnone : lookupKey (pushRun dg cp store0 pfx root tim0 t).store k
            = none := by
          rw [hsplit]
          exact mem_delTxns_none (pushDelKeys dg cp store0 pfx root tim0 t)
            _ k hkdel1 hklast
        exact lookupKey_ne_none_of_mem _ k hkmem hnone
      · -- a key written by the first run: a content key (excluded) or a
        -- companion (ends in `.hash`, excluded); deletions write nothing
        rw [pushOps, pushWalk_ops] at ht'
        rcases List.mem_append.mp ht' with hC | hD
        · rcases List.mem_map.mp hC with ⟨fr', hfr', rfl⟩
          subst hv
          have hop' : StoreOp.put k v ∈ ([] : List StoreOp)
              ++ [StoreOp.put (fileKey pfx fr') (cp fr'.raw),
                  StoreOp.put (compJoin (fileKey pfx fr') [".hash"]) (dg fr'.raw)] := hop
          rw [List.nil_append] at hop'
          rcases List.mem_cons.mp hop' with h | h2
          · injection h with h1 hv2
            exact hkK (by rw [h1]; exact List.mem_map.mpr ⟨fr', hfr', rfl⟩)
          · rcases List.mem_cons.mp h2 with h | h3
            · injection h with h1 hv2
              exact hklast (by rw [h1, fileKey_hash]; exact getLast_append_one _ _)
            · exact absurd h3 (List.not_mem_nil _)
        · rcases List.mem_map.mp hD with ⟨d, hd, rfl⟩
          subst hv
          have hop' : StoreOp.put k v ∈ [StoreOp.del d,
              StoreOp.del (compJoin d [".hash"])] ++ ([] : List StoreOp) := hop
          rw [List.append_nil] at hop'
          rcases List.mem_cons.mp hop' with h | h2
          · exact StoreOp.noConfusion h
          · rcases List.mem_cons.mp h2 with h | h3
            · exact StoreOp.noConfusion h
            · exact absurd h3 (List.not_mem_nil _)
  -- assemble: no deletions, all guards succeed, so nothing is printed
  have hops2 : pushOps dg cp (pushRun dg cp store0 pfx root tim0 t).store
      pfx root tim0 t = (pushSpec root tim0 t).2.map (fileTxn dg cp pfx) := by
    rw [pushOps, pushWalk_ops, hdel2, List.map_nil, List.append_nil]
  have hdescs2 : pushDescs dg cp (pushRun dg cp store0 pfx root tim0 t).store
      pfx root tim0 t
      = (pushSpec root tim0 t).2.map (fun fr => (fileKey pfx fr, false)) := by
    rw [pushDescs, pushWalk_descs, hdel2, List.map_nil, List.append_nil]
  have hsucc := condPuts_succeed dg cp pfx (pushSpec root tim0 t).2
    (pushRun dg cp store0 pfx root tim0 t).store hfile1
  show reportLines
      ((pushDescs dg cp (pushRun dg cp store0 pfx root tim0 t).store pfx root tim0 t).zip
        ((applyTxn (pushRun dg cp store0 pfx root tim0 t).store
          (pushOps dg cp (pushRun dg cp store0 pfx root tim0 t).store
            pfx root tim0 t)).2)) = []
  rw [hdescs2, hops2, hsucc]
  exact reportLines_files (fileKey pfx) (pushSpec root tim0 t).2

/-- Witness for the amended C3: a one-file tree pushed twice over an
initially empty store — the hypotheses hold and the second run prints
nothing. -/
theorem c3_amended_idempotent_witness :
    pushOut (pushRun id id
      (pushRun id id [] ["p"] ["r"] ⟨["r"], none, []⟩
        (FTree.dir none (FForest.cons "x" (FTree.file [1]) FForest.nil))).store
      ["p"] ["r"] ⟨["r"], none, []⟩
      (FTree.dir none (FForest.cons "x" (FTree.file [1]) FForest.nil))) = [] :=
  c3_amended_idempotent id id [] ["p"] ["r"] ⟨["r"], none, []⟩
    (FTree.dir none (FForest.cons "x" (FTree.file [1]) FForest.nil))
    (by decide) (by decide) (by decide)

end Confsync
